import Mathlib

/-!
Verification development for the receipt line-item extraction and
reconciliation pipeline of the UW-Snack-Overflow repository.

The Python sources are shallowly embedded over `List Char`:

* strings are `List Char`; Python `str.strip`, `str.upper`, `re.sub` on the
  concrete patterns used by the code, and substring tests are embedded as
  executable Lean functions;
* floats are embedded as rationals (the code only adds, divides, compares
  and rounds currency values, where the rational semantics is the intended
  one);
* Python `round` is embedded as round-half-to-even on rationals;
* `pandas.groupby` is embedded as grouping by key with the documented
  pandas semantics (rows with a missing key are dropped; `first`
  aggregation takes the first member in row order); group enumeration
  order follows first occurrence, which no stated property depends on
  (the final outputs are re-sorted by total cost);
* the PDF-text collaborator is factored out: receipt-level functions take
  the list of extracted text lines directly, and the per-document metadata
  (receipt date and receipt number) is omitted, since no stated property
  mentions it;
* the network collaborator of `scrape_costco_item_info` is factored out as
  an oracle describing which of the scraping outcomes occurs; the function
  shape (which return sites produce a bare name versus a pair) is embedded
  faithfully.

Python's regexes are embedded pattern by pattern.  Each of the concrete
patterns used by the code is deterministic in the following sense: the
character classes of adjacent greedy pieces are disjoint, so the backtracking
engine's result coincides with a single left-to-right (or, for the
end-anchored price patterns, right-to-left) scan.  The one place where
laziness matters, the description group of the Costco item pattern, is
resolved by uniqueness of the valid split (the text after the price may
contain no digits, so at most one price position can match); when the
description group consists of whitespace only, the Python code falls
through to the code-only pattern, which then always matches, and the
embedding mirrors exactly that composite behaviour.
-/

/-! ## Character and string utilities -/

/- Rational arithmetic is evaluated inside `decide` proofs on concrete
inputs; the library marks some of the operations irreducible, which only
affects elaboration-time unfolding, so they are restored to the default
reducibility for this file. -/
attribute [local semireducible] Rat.add Rat.sub Rat.mul Rat.inv

abbrev Str := List Char

/-- Whitespace as matched by Python's `\s` on the ASCII inputs at hand. -/
def isWsp (c : Char) : Bool :=
  c = ' ' || c = '\t' || c = '\n' || c = '\r' || c = Char.ofNat 11 || c = Char.ofNat 12

/-- Apply the first matching rewrite pair, if any. -/
def mapChar (ps : List (Char × Char)) (c : Char) : Char :=
  match ps with
  | [] => c
  | p :: t => if c = p.1 then p.2 else mapChar t c

/-- The lower-to-upper ASCII letter pairs. -/
def upPairs : List (Char × Char) :=
  [('a', 'A'), ('b', 'B'), ('c', 'C'), ('d', 'D'), ('e', 'E'), ('f', 'F'),
   ('g', 'G'), ('h', 'H'), ('i', 'I'), ('j', 'J'), ('k', 'K'), ('l', 'L'),
   ('m', 'M'), ('n', 'N'), ('o', 'O'), ('p', 'P'), ('q', 'Q'), ('r', 'R'),
   ('s', 'S'), ('t', 'T'), ('u', 'U'), ('v', 'V'), ('w', 'W'), ('x', 'X'),
   ('y', 'Y'), ('z', 'Z')]

/-- The upper-to-lower ASCII letter pairs. -/
def lowPairs : List (Char × Char) :=
  [('A', 'a'), ('B', 'b'), ('C', 'c'), ('D', 'd'), ('E', 'e'), ('F', 'f'),
   ('G', 'g'), ('H', 'h'), ('I', 'i'), ('J', 'j'), ('K', 'k'), ('L', 'l'),
   ('M', 'm'), ('N', 'n'), ('O', 'o'), ('P', 'p'), ('Q', 'q'), ('R', 'r'),
   ('S', 's'), ('T', 't'), ('U', 'u'), ('V', 'v'), ('W', 'w'), ('X', 'x'),
   ('Y', 'y'), ('Z', 'z')]

/-- ASCII upper-casing of one character, as `str.upper` acts on these inputs. -/
def upperChar (c : Char) : Char := mapChar upPairs c

/-- ASCII lower-casing of one character, as `str.lower` acts on these inputs. -/
def lowerChar (c : Char) : Char := mapChar lowPairs c

def upperStr (s : Str) : Str := s.map upperChar

def isDigitC (c : Char) : Bool := '0' ≤ c && c ≤ '9'

def digitVal (c : Char) : ℕ := c.toNat - 48

def digitsToNat (l : Str) : ℕ := l.foldl (fun a c => a * 10 + digitVal c) 0

def containsChar (c : Char) (s : Str) : Bool := s.any (fun x => x = c)

def endsWithChar (c : Char) (s : Str) : Bool :=
  match s.getLast? with
  | some d => d = c
  | none => false

/-- `pat` is a prefix of `s` (`str.startswith`). -/
def startsWithSeq (pat s : Str) : Bool :=
  match pat, s with
  | [], _ => true
  | _ :: _, [] => false
  | p :: ps, c :: cs => p = c && startsWithSeq ps cs

/-- `pat` occurs as a contiguous substring of `s` (Python `pat in s`). -/
def hasSubSeq (pat s : Str) : Bool :=
  match s with
  | [] => pat = []
  | _ :: cs => startsWithSeq pat s || hasSubSeq pat cs

/-- Some member of `pats` occurs inside the upper-cased `s`. -/
def containsAnyUpper (pats : List Str) (s : Str) : Bool :=
  pats.any (fun p => hasSubSeq p (upperStr s))

/-- Remove a trailing whitespace run. -/
def dropTrailingWs : Str → Str
  | [] => []
  | c :: cs =>
    match dropTrailingWs cs with
    | [] => if isWsp c then [] else [c]
    | r => c :: r

/-- Python `str.strip()`. -/
def stripWs (l : Str) : Str := dropTrailingWs (l.dropWhile isWsp)

/-- One pass of `re.sub(r'\s+', ' ', ·)`: `b` records whether the previous
character was whitespace already replaced. -/
def collapseAux (b : Bool) : Str → Str
  | [] => []
  | c :: cs =>
    if isWsp c then
      if b then collapseAux true cs else ' ' :: collapseAux true cs
    else c :: collapseAux false cs

/-- `re.sub(r'\s+', ' ', ·)`. -/
def collapseWs (l : Str) : Str := collapseAux false l

/-- Extracted item record, as the dictionaries produced by the line parsers
(`store`, `receipt_date` and `receipt_number` are omitted: the first is a
constant per parser and no stated property mentions the other two). -/
structure ItemRec where
  item_code : Str
  item_name : Str
  quantity : ℕ
  unit_price : ℚ
  total_price : ℚ
deriving DecidableEq

/-- The record shape shared by all four parser return sites:
`unit_price = price / quantity if quantity > 1 else price`. -/
def mkParsedRec (code name : Str) (q : ℕ) (p : ℚ) : ItemRec :=
  ⟨code, name, q, if 1 < q then p / (q : ℚ) else p, p⟩

/-! ## parse_receipts.py — Costco side -/

namespace ParseReceipts

/-- The non-item keyword vocabulary of `parse_receipts.is_valid_item`. -/
def non_item_keywords : List Str :=
  (["AMOUNT", "TOTAL", "SUBTOTAL", "TAX", "BALANCE", "DUE",
    "CASH", "CARD", "CREDIT", "DEBIT", "PAYMENT", "PAID",
    "CHANGE", "REFUND", "DISCOUNT", "COUPON", "REWARD",
    "RECEIPT", "INVOICE", "DATE", "TIME", "STORE", "WAREHOUSE",
    "MEMBERSHIP", "THANK", "YOU", "VISIT", "AGAIN",
    "ITEM", "DESCRIPTION", "QTY", "QUANTITY", "PRICE",
    "VISA", "MASTERCARD", "AMEX", "DISCOVER", "CHECK",
    "GIFT", "CARD", "BALANCE", "REMAINING", "APPROVED",
    "PURCHASE", "CHIP", "READ", "INSTANT", "SAVINGS"]).map String.toList

/-- Character class `[\d\s#,\-*$]` of the mostly-numeric check. -/
def numSymChar (c : Char) : Bool :=
  isDigitC c || isWsp c || c = '#' || c = ',' || c = '-' || c = '*' || c = '$'

/-- Character class `[*#$]`. -/
def symChar (c : Char) : Bool := c = '*' || c = '#' || c = '$'

/-- `re.match(r'^[*#$]+\s*\d+\s*[*#$]*$', ·)`: symbol-wrapped digits.  All
adjacent classes are disjoint, so a sequential scan is faithful. -/
def symWrappedDigits (l : Str) : Bool :=
  let s1 := l.dropWhile symChar
  (decide (s1.length < l.length)) &&
    (let s2 := s1.dropWhile isWsp
     let s3 := s2.dropWhile isDigitC
     (decide (s3.length < s2.length)) &&
       (let s4 := s3.dropWhile isWsp
        (s4.dropWhile symChar) = []))

/-- Payment-method prefixes checked by regex on the upper-cased name. -/
def paymentStarts : List Str :=
  (["CASH", "CARD", "CREDIT", "DEBIT", "VISA", "MASTERCARD"]).map String.toList

/-- Shared validity gate: embedding of `is_valid_item`, parameterised by the
keyword list (the two source files differ only there). -/
def is_valid_item_gen (kws : List Str) (item_name : Str) : Bool :=
  if item_name = [] || (stripWs item_name).length < 2 then false
  else
    let item_upper := upperStr (stripWs item_name)
    if kws.any (fun k => item_upper = k) then false
    else if kws.any (fun k =>
        startsWithSeq (k ++ [':']) item_upper || startsWithSeq (k ++ [' ']) item_upper) then false
    else if item_name ≠ [] && item_name.all numSymChar then false
    else if symWrappedDigits item_name then false
    else if paymentStarts.any (fun p => startsWithSeq p item_upper) then false
    else if containsChar '/' item_name && endsWithChar '-' (stripWs item_name) then false
    else true

/-- `parse_receipts.is_valid_item`. -/
def is_valid_item (item_name : Str) : Bool := is_valid_item_gen non_item_keywords item_name

/-- Price value `<intpart>.<f1><f2>` as a rational. -/
def priceVal (intpart : Str) (f1 f2 : Char) : ℚ :=
  (digitsToNat intpart : ℚ) + ((10 * digitVal f1 + digitVal f2 : ℕ) : ℚ) / 100

/-- End-analysis shared by the two Costco patterns: on `s`, the text after
`E <code> `, match `(.+?)\s+(\d+\.\d{2})\s*([YN]?)$` and return the raw
description group (trailing whitespace already excluded by laziness) and the
price.  Returns `none` exactly when the regex fails or the description group
is whitespace-only (in which case the Python code falls through to the
code-only pattern, which then necessarily matches). -/
def pat1Core (s : Str) : Option (Str × ℚ) :=
  let r := (s.reverse).dropWhile isWsp
  let r1 := match r with
    | c :: t => if c = 'Y' || c = 'N' then t.dropWhile isWsp else r
    | [] => r
  match r1 with
  | f2 :: f1 :: dot :: t =>
    if isDigitC f2 && isDigitC f1 && dot = '.' then
      let p := t.span isDigitC
      if p.1 ≠ [] then
        match p.2 with
        | w :: t3 =>
          if isWsp w then
            let d := (t3.dropWhile isWsp).reverse
            if d ≠ [] then some (d, priceVal p.1.reverse f1 f2) else none
          else none
        | [] => none
      else none
    else none
  | _ => none

/-- `re.match(r'^E\s+(\d+)\s+(.+?)\s+(\d+\.\d{2})\s*([YN]?)$', ·)`,
returning code, raw description and price. -/
def pat1Match (line : Str) : Option (Str × Str × ℚ) :=
  match line with
  | 'E' :: t =>
    match t with
    | c :: t2 =>
      if isWsp c then
        let t3 := t2.dropWhile isWsp
        let p := t3.span isDigitC
        if p.1 ≠ [] then
          match p.2 with
          | w :: t5 =>
            if isWsp w then
              (pat1Core (t5.dropWhile isWsp)).map (fun dp => (p.1, dp.1, dp.2))
            else none
          | [] => none
        else none
      else none
    | [] => none
  | _ => none

/-- `re.match(r'^E\s+(\d+)\s+(\d+\.\d{2})\s*([YN]?)$', ·)`: the code-only
form, returning code and price. -/
def pat2Match (line : Str) : Option (Str × ℚ) :=
  match line with
  | 'E' :: t =>
    match t with
    | c :: t2 =>
      if isWsp c then
        let t3 := t2.dropWhile isWsp
        let p := t3.span isDigitC
        if p.1 ≠ [] then
          match p.2 with
          | w :: t5 =>
            if isWsp w then
              let u := t5.dropWhile isWsp
              let q := u.span isDigitC
              if q.1 ≠ [] then
                match q.2 with
                | '.' :: a :: b :: rest =>
                  if isDigitC a && isDigitC b then
                    match rest.dropWhile isWsp with
                    | [] => some (p.1, priceVal q.1 a b)
                    | [f] => if f = 'Y' || f = 'N' then some (p.1, priceVal q.1 a b) else none
                    | _ => none
                  else none
                | _ => none
              else none
            else none
          | [] => none
        else none
      else none
    | [] => none
  | _ => none

/-- The quantity-marker extraction `re.search(r'^(\d+)\s*x\s+', ·, IGNORECASE)`
followed by stripping that marker; returns quantity (default 1) and the
remaining description. -/
def qtyStrip (d : Str) : ℕ × Str :=
  let p := d.span isDigitC
  if p.1 ≠ [] then
    match p.2.dropWhile isWsp with
    | x :: r3 =>
      if x = 'x' || x = 'X' then
        match r3 with
        | w :: _ => if isWsp w then (digitsToNat p.1, stripWs (r3.dropWhile isWsp)) else (1, d)
        | [] => (1, d)
      else (1, d)
    | [] => (1, d)
  else (1, d)

/-- Skip keywords of `parse_costco_line`. -/
def costcoLineSkipWords : List Str :=
  (["SUBTOTAL", "TOTAL", "TAX", "AMOUNT:",
    "CASH", "CHANGE", "APPROVED", "PURCHASE",
    "CHIP", "READ", "MEMBER", "ORDERS", "PURCHASES"]).map String.toList

/-- Embedding of `parse_costco_line`. -/
def parse_costco_line (line0 : Str) : Option ItemRec :=
  let line := stripWs line0
  if line = [] then none
  else if containsChar '/' line && endsWithChar '-' line then none
  else if containsAnyUpper costcoLineSkipWords line then none
  else
    let viaPat1 : Option ItemRec :=
      match pat1Match line with
      | some (code, d, p) =>
        let d1 := collapseWs (stripWs d)
        let qn := qtyStrip d1
        if qn.2 ≠ [] then some (mkParsedRec code qn.2 qn.1 p)
        else none
      | none => none
    match viaPat1 with
    | some r => some r
    | none =>
      match pat2Match line with
      | some (code, p) => some (mkParsedRec code [] 1 p)
      | none => none

/-- Header/boilerplate skip set of `parse_costco_receipt`'s line loop. -/
def costcoHeaderWords : List Str :=
  (["COSTCO", "WAREHOUSE", "MEMBER", "ORDERS", "PURCHASES", "LYNNWOOD",
    "HIGHWAY", "HTTP", "WWW"]).map String.toList

/-- `re.match(r'^\d+\.\d{2}', ·)`: a price-like prefix. -/
def pricePre (s : Str) : Bool :=
  let p := s.span isDigitC
  !p.1.isEmpty &&
    (match p.2 with
     | '.' :: a :: b :: _ => isDigitC a && isDigitC b
     | _ => false)

/-- Skip set used by the description-fragment scan. -/
def fragWords : List Str :=
  (["TOTAL", "SUBTOTAL", "TAX", "CASH", "MEMBER"]).map String.toList

/-- Condition accepting a (stripped) adjacent line as a description fragment
for a code-only item. -/
def fragOkS (s : Str) : Bool :=
  !s.isEmpty && !startsWithSeq (("E ").toList) s && !pricePre s &&
    !(containsChar '/' s && endsWithChar '-' s) && !containsAnyUpper fragWords s

/-- Turn an optional previous raw line into a description-fragment list. -/
def fragList (x : Option Str) : List Str :=
  match x with
  | some s => let s' := stripWs s; if fragOkS s' then [s'] else []
  | none => []

/-- Replace the record's name by the joined fragments, if any (the Python
`' '.join(parts).strip()` followed by whitespace collapapsing). -/
def stitchName (info : ItemRec) (parts : List Str) : ItemRec :=
  if parts.isEmpty then info
  else { info with item_name := collapseWs (stripWs (List.intercalate [' '] parts)) }

/-- Emission gate of the Costco assembler. -/
def costcoEmit (r : ItemRec) : List ItemRec :=
  if !r.item_name.isEmpty && is_valid_item r.item_name then [r] else []

/-- The line loop of `parse_costco_receipt`, with the previous two raw lines
carried as state (the backward description scan reads `lines[i-2..i-1]`; the
accepted fragments end up ordered `lines[i-1]` before `lines[i-2]` because
the Python loop inserts each accepted fragment at position 0 while scanning
forward).  A forward fragment taken from `lines[i+1]` or `lines[i+2]`
advances the cursor past it (the Python loop sets `i = j` and breaks, so an
acceptance at `i+2` also skips the rejected line `i+1`).  The up-to-two-line
lookahead is spelt out in the patterns to keep the recursion structural. -/
def costco_go (p2 p1 : Option Str) : List Str → List ItemRec
  | [] => []
  | [l] =>
    let ls := stripWs l
    if containsAnyUpper costcoHeaderWords ls then []
    else
      match parse_costco_line ls with
      | none => []
      | some info =>
        if (pat2Match ls).isSome then
          costcoEmit (stitchName info (fragList p1 ++ fragList p2))
        else costcoEmit info
  | [l, n1] =>
    let ls := stripWs l
    if containsAnyUpper costcoHeaderWords ls then costco_go p1 (some l) [n1]
    else
      match parse_costco_line ls with
      | none => costco_go p1 (some l) [n1]
      | some info =>
        if (pat2Match ls).isSome then
          let n1s := stripWs n1
          if fragOkS n1s then
            costcoEmit (stitchName info (fragList p1 ++ fragList p2 ++ [n1s])) ++
              costco_go (some l) (some n1) []
          else
            costcoEmit (stitchName info (fragList p1 ++ fragList p2)) ++
              costco_go p1 (some l) [n1]
        else costcoEmit info ++ costco_go p1 (some l) [n1]
  | l :: n1 :: n2 :: rest2 =>
    let ls := stripWs l
    if containsAnyUpper costcoHeaderWords ls then costco_go p1 (some l) (n1 :: n2 :: rest2)
    else
      match parse_costco_line ls with
      | none => costco_go p1 (some l) (n1 :: n2 :: rest2)
      | some info =>
        if (pat2Match ls).isSome then
          let n1s := stripWs n1
          if fragOkS n1s then
            costcoEmit (stitchName info (fragList p1 ++ fragList p2 ++ [n1s])) ++
              costco_go (some l) (some n1) (n2 :: rest2)
          else
            let n2s := stripWs n2
            if fragOkS n2s then
              costcoEmit (stitchName info (fragList p1 ++ fragList p2 ++ [n2s])) ++
                costco_go (some n1) (some n2) rest2
            else
              costcoEmit (stitchName info (fragList p1 ++ fragList p2)) ++
                costco_go p1 (some l) (n1 :: n2 :: rest2)
        else costcoEmit info ++ costco_go p1 (some l) (n1 :: n2 :: rest2)

/-- Embedding of `parse_costco_receipt`, over the list of extracted text
lines (the PDF collaborator and the receipt metadata are factored out). -/
def parse_costco_receipt (lines : List Str) : List ItemRec := costco_go none none lines

end ParseReceipts

/-! ## parse_sams_club_receipts.py — the dedicated Sam's Club parser -/

namespace SamsReceipts

/-- The extended non-item keyword vocabulary of
`parse_sams_club_receipts.is_valid_item`. -/
def non_item_keywords : List Str :=
  (["AMOUNT", "TOTAL", "SUBTOTAL", "TAX", "BALANCE", "DUE",
    "CASH", "CARD", "CREDIT", "DEBIT", "PAYMENT", "PAID",
    "CHANGE", "REFUND", "DISCOUNT", "COUPON", "REWARD",
    "RECEIPT", "INVOICE", "DATE", "TIME", "STORE", "WAREHOUSE",
    "MEMBERSHIP", "THANK", "YOU", "VISIT", "AGAIN",
    "ITEM", "DESCRIPTION", "QTY", "QUANTITY", "PRICE",
    "VISA", "MASTERCARD", "AMEX", "DISCOVER", "CHECK",
    "GIFT", "CARD", "BALANCE", "REMAINING", "APPROVED",
    "PURCHASE", "CHIP", "READ", "INSTANT", "SAVINGS",
    "SHIPPING", "SALES", "ORDER", "AUTHORIZATION", "PENDING",
    "CHARGE", "FUNDS", "AVAILABLE", "CREDIT CARDS"]).map String.toList

/-- `parse_sams_club_receipts.is_valid_item`. -/
def is_valid_item (item_name : Str) : Bool :=
  ParseReceipts.is_valid_item_gen non_item_keywords item_name

/-- Skip keywords of `parse_sams_club_line`. -/
def samsLineSkipWords : List Str :=
  (["SUBTOTAL", "TOTAL", "TAX", "AMOUNT:",
    "CASH", "CHANGE", "APPROVED", "PURCHASE",
    "SHIPPING", "SALES", "ORDER", "CREDIT CARDS"]).map String.toList

/-- `re.match(r'^\d+\s+[A-Z]', ·)`: house-number-like prefix. -/
def addrStart (s : Str) : Bool :=
  let p := s.span isDigitC
  !p.1.isEmpty &&
    (let q := p.2.span isWsp
     !q.1.isEmpty &&
       (match q.2 with
        | c :: _ => 'A' ≤ c && c ≤ 'Z'
        | [] => false))

/-- Roadway tokens checked case-sensitively on the original line. -/
def roadTokens : List Str := (["BLVD", "ST", "AVE", "RD"]).map String.toList

/-- Match the literal `Qty` case-insensitively, returning the rest. -/
def qtyCi (s : Str) : Option Str :=
  match s with
  | q :: t :: y :: r =>
    if (q = 'Q' || q = 'q') && (t = 'T' || t = 't') && (y = 'Y' || y = 'y') then some r
    else none
  | _ => none

/-- Whole-tail match of `Qty\s+(\d+)\s+\$(\d+\.\d{2})\s*` anchored at the
end; all adjacent pieces have disjoint character classes, so the sequential
scan is faithful to the regex. -/
def qtyPriceTail (s : Str) : Option (ℕ × ℚ) :=
  (qtyCi s).bind fun r1 =>
    let w := r1.span isWsp
    if w.1.isEmpty then none
    else
      let d := w.2.span isDigitC
      if d.1.isEmpty then none
      else
        let w2 := d.2.span isWsp
        if w2.1.isEmpty then none
        else
          match w2.2 with
          | '$' :: r2 =>
            let ip := r2.span isDigitC
            if ip.1.isEmpty then none
            else
              match ip.2 with
              | '.' :: a :: b :: rest =>
                if isDigitC a && isDigitC b && (rest.dropWhile isWsp).isEmpty then
                  some (digitsToNat d.1, ParseReceipts.priceVal ip.1 a b)
                else none
              | _ => none
          | _ => none

/-- `re.search(r'Qty\s+(\d+)\s+\$(\d+\.\d{2})\s*$', ·, IGNORECASE)`: leftmost
start position; returns the prefix before the match, quantity and price. -/
def findQtyPrice : Str → Option (Str × ℕ × ℚ)
  | [] => none
  | c :: cs =>
    match qtyPriceTail (c :: cs) with
    | some qp => some ([], qp.1, qp.2)
    | none => (findQtyPrice cs).map (fun r => (c :: r.1, r.2.1, r.2.2))

/-- Whole-tail match of `\$(\d+\.\d{2})\s*` anchored at the end. -/
def priceTail (s : Str) : Option ℚ :=
  match s with
  | '$' :: r =>
    let ip := r.span isDigitC
    if ip.1.isEmpty then none
    else
      match ip.2 with
      | '.' :: a :: b :: rest =>
        if isDigitC a && isDigitC b && (rest.dropWhile isWsp).isEmpty then
          some (ParseReceipts.priceVal ip.1 a b)
        else none
      | _ => none
  | _ => none

/-- `re.search(r'\$(\d+\.\d{2})\s*$', ·)`. -/
def findPriceOnly : Str → Option (Str × ℚ)
  | [] => none
  | c :: cs =>
    match priceTail (c :: cs) with
    | some p => some ([], p)
    | none => (findPriceOnly cs).map (fun r => (c :: r.1, r.2))

/-- Match of `Qty\s+(\d+)` at the head. -/
def qtyAnyAt (s : Str) : Option ℕ :=
  (qtyCi s).bind fun r =>
    let w := r.span isWsp
    if w.1.isEmpty then none
    else
      let d := w.2.span isDigitC
      if d.1.isEmpty then none else some (digitsToNat d.1)

/-- `re.search(r'Qty\s+(\d+)', ·, IGNORECASE)`. -/
def findQtyAny : Str → Option ℕ
  | [] => none
  | c :: cs =>
    match qtyAnyAt (c :: cs) with
    | some q => some q
    | none => findQtyAny cs

/-- Match of `\s*Qty\s+\d+\s*` at the head: returns the remainder. -/
def qtySubAt (s : Str) : Option Str :=
  let w := s.span isWsp
  (qtyCi w.2).bind fun r =>
    let w1 := r.span isWsp
    if w1.1.isEmpty then none
    else
      let d := w1.2.span isDigitC
      if d.1.isEmpty then none else some (d.2.dropWhile isWsp)

/-- `re.sub(r'\s*Qty\s+\d+\s*', ' ', ·, IGNORECASE)` with a fuel bound (each
match consumes at least four characters, so fuel `|s|` never runs out). -/
def qtySubAll : ℕ → Str → Str
  | 0, s => s
  | _, [] => []
  | n + 1, c :: cs =>
    match qtySubAt (c :: cs) with
    | some rest => ' ' :: qtySubAll n rest
    | none => c :: qtySubAll n cs

def removeQtyTokens (s : Str) : Str := qtySubAll s.length s

/-- Whole-tail match of `\s+Qty\s*` anchored at the end. -/
def trailQtyTail (s : Str) : Bool :=
  let w := s.span isWsp
  !w.1.isEmpty &&
    (match qtyCi w.2 with
     | some r => (r.dropWhile isWsp).isEmpty
     | none => false)

/-- `re.sub(r'\s+Qty\s*$', '', ·, IGNORECASE)`. -/
def trailQtyStrip : Str → Str
  | [] => []
  | c :: cs => if trailQtyTail (c :: cs) then [] else c :: trailQtyStrip cs

/-- Embedding of `parse_sams_club_line` (the dedicated-file version; the
first pattern's failure of the validity/price guard falls through to the
price-only pattern, exactly as the Python control flow does). -/
def parse_sams_club_line (line0 : Str) : Option ItemRec :=
  let line := stripWs line0
  if line = [] then none
  else if containsChar '/' line && endsWithChar '-' line then none
  else if containsAnyUpper samsLineSkipWords line then none
  else if addrStart line && roadTokens.any (fun t => hasSubSeq t line) then none
  else
    let b1 : Option ItemRec :=
      match findQtyPrice line with
      | some (pre, q, p) =>
        let n2 := stripWs (trailQtyStrip (collapseWs (stripWs pre)))
        if !n2.isEmpty && is_valid_item n2 && 0 < p then
          some (mkParsedRec [] n2 q p)
        else none
      | none => none
    match b1 with
    | some r => some r
    | none =>
      match findPriceOnly line with
      | some (pre, p) =>
        let n0 := collapseWs (stripWs pre)
        let qn : ℕ × Str :=
          match findQtyAny n0 with
          | some q => (q, collapseWs (stripWs (removeQtyTokens n0)))
          | none => (1, n0)
        if !qn.2.isEmpty && is_valid_item qn.2 && 0 < p then
          some (mkParsedRec [] qn.2 qn.1 p)
        else none
      | none => none

/-- The literal `SAM'S` (built characterwise). -/
def samQuoteS : Str := ['S', 'A', 'M', Char.ofNat 39, 'S']

/-- Header/boilerplate skip set of `parse_sams_club_receipt`'s line loop. -/
def samsHeaderWords : List Str :=
  samQuoteS ::
    (["CLUB", "MEMBER", "HTTP", "WWW", "SHIPPING ITEMS",
      "ORDER", "HUGH", "GRAMELSPACHER",
      "NE", "BLVD", "SEATTLE", "WA"]).map String.toList

/-- Match of `Qty\s+\d+\s+\$` at the head (no end anchor). -/
def qtyDollarAt (s : Str) : Bool :=
  match qtyCi s with
  | none => false
  | some r =>
    let w := r.span isWsp
    !w.1.isEmpty &&
      (let d := w.2.span isDigitC
       !d.1.isEmpty &&
         (let w2 := d.2.span isWsp
          !w2.1.isEmpty &&
            (match w2.2 with
             | '$' :: _ => true
             | _ => false)))

/-- `re.search(r'Qty\s+\d+\s+\$', ·, IGNORECASE)` as a Boolean. -/
def hasQtyDollar : Str → Bool
  | [] => false
  | c :: cs => qtyDollarAt (c :: cs) || hasQtyDollar cs

/-- Match of `\$\d+\.\d{2}` at the head (no end anchor). -/
def dollarPriceAt (s : Str) : Bool :=
  match s with
  | '$' :: r =>
    let ip := r.span isDigitC
    !ip.1.isEmpty &&
      (match ip.2 with
       | '.' :: a :: b :: _ => isDigitC a && isDigitC b
       | _ => false)
  | _ => false

/-- `re.search(r'\$\d+\.\d{2}', ·)` as a Boolean. -/
def hasDollarPrice : Str → Bool
  | [] => false
  | c :: cs => dollarPriceAt (c :: cs) || hasDollarPrice cs

/-- Structural keywords barring a continuation line. -/
def contWords : List Str :=
  (["TOTAL", "SUBTOTAL", "TAX", "CASH", "SHIPPING"]).map String.toList

/-- Continuation-line condition of the Sam's Club assembler (applied to the
stripped next line). -/
def contOk (n : Str) : Bool :=
  !n.isEmpty && decide (n.length < 50) && !hasQtyDollar n && !hasDollarPrice n &&
    !containsAnyUpper contWords n

/-- Append a continuation line to the record's name. -/
def appendCont (info : ItemRec) (n : Str) : ItemRec :=
  { info with item_name := stripWs (collapseWs (info.item_name ++ ' ' :: n)) }

/-- Emission gate of the Sam's Club assembler. -/
def samsEmit (r : ItemRec) : List ItemRec :=
  if !r.item_name.isEmpty && is_valid_item r.item_name then [r] else []

/-- The line loop of `parse_sams_club_receipt`: header lines are skipped
before any parsing; a parsed record may absorb the immediately following
line as a name continuation, advancing the cursor past it. -/
def sams_go : List Str → List ItemRec
  | [] => []
  | [l] =>
    let ls := stripWs l
    if containsAnyUpper samsHeaderWords ls then []
    else
      match parse_sams_club_line ls with
      | none => []
      | some info => samsEmit info
  | l :: n :: rest2 =>
    let ls := stripWs l
    if containsAnyUpper samsHeaderWords ls then sams_go (n :: rest2)
    else
      match parse_sams_club_line ls with
      | none => sams_go (n :: rest2)
      | some info =>
        let ns := stripWs n
        if contOk ns then samsEmit (appendCont info ns) ++ sams_go rest2
        else samsEmit info ++ sams_go (n :: rest2)

/-- Embedding of `parse_sams_club_receipt`, over the list of extracted text
lines. -/
def parse_sams_club_receipt (lines : List Str) : List ItemRec := sams_go lines

end SamsReceipts

/-! ## Shared collation utilities -/

/-- Word characters for `\b` boundaries. -/
def isWordChar (c : Char) : Bool :=
  isDigitC c || ('a' ≤ c && c ≤ 'z') || ('A' ≤ c && c ≤ 'Z') || c = '_'

/-- Match a lower-case literal case-insensitively at the head, returning the
rest. -/
def literalCi : Str → Str → Option Str
  | [], s => some s
  | _ :: _, [] => none
  | t :: ts, c :: cs => if lowerChar c = t then literalCi ts cs else none

/-- The distinct keys of a list in first-occurrence order (the group
enumeration of the embedded `groupby`). -/
def uniqKeys : List Str → List Str
  | [] => []
  | k :: ks => k :: (uniqKeys ks).filter (fun x => x ≠ k)

/-- An aggregated output row (`item`, `quantity`, `total_cost`). -/
structure OutRow where
  item : Str
  quantity : ℤ
  total_cost : ℚ
deriving DecidableEq

/-- Stable insertion into a list sorted by total cost descending. -/
def sortInsert (r : OutRow) : List OutRow → List OutRow
  | [] => [r]
  | x :: xs => if x.total_cost < r.total_cost then r :: x :: xs else x :: sortInsert r xs

/-- `sort_values('total_cost', ascending=False)` (stable on ties). -/
def sortByCostDesc (l : List OutRow) : List OutRow :=
  l.foldl (fun acc r => sortInsert r acc) []

/-- Python `round` on exact rationals: round half to even. -/
def pyRound (q : ℚ) : ℤ :=
  let f := Int.floor q
  let r := q - (f : ℚ)
  if r < 1 / 2 then f
  else if 1 / 2 < r then f + 1
  else if f % 2 = 0 then f else f + 1

def insSortQ (x : ℚ) : List ℚ → List ℚ
  | [] => [x]
  | y :: ys => if x ≤ y then x :: y :: ys else y :: insSortQ x ys

def sortQ (l : List ℚ) : List ℚ := l.foldr insSortQ []

/-- `pandas.Series.median`: middle element of the sorted values, or the mean
of the two middle elements (0 on an empty list, which the theorems below
exclude by hypothesis). -/
def pandasMedian (l : List ℚ) : ℚ :=
  let s := sortQ l
  let n := s.length
  if n = 0 then 0
  else if n % 2 = 1 then s.getD (n / 2) 0
  else (s.getD (n / 2 - 1) 0 + s.getD (n / 2) 0) / 2

/-! ## collate_sams_club_items.py -/

namespace CollateSamsClub

/-- Try one pack-size token with its trailing `\b` boundary. -/
def tokWithB (tok : Str) (r : Str) : Option Str :=
  (literalCi tok r).bind fun rest =>
    match rest with
    | [] => some []
    | c :: _ => if isWordChar c then none else some rest

/-- Match `(\d+)\s*TOK\b` at the head for a single token, returning the pack
count. -/
def packTokAt (tok : Str) (s : Str) : Option ℕ :=
  let d := s.span isDigitC
  if d.1.isEmpty then none
  else
    let r := d.2.dropWhile isWsp
    match tokWithB tok r with
    | some _ => some (digitsToNat d.1)
    | none => none

/-- `pieces?`: greedy optional `s`, with the boundary after whichever form
matches. -/
def packPieceAt (s : Str) : Option ℕ :=
  let d := s.span isDigitC
  if d.1.isEmpty then none
  else
    let r := d.2.dropWhile isWsp
    match tokWithB (("pieces").toList) r with
    | some _ => some (digitsToNat d.1)
    | none =>
      match tokWithB (("piece").toList) r with
      | some _ => some (digitsToNat d.1)
      | none => none

/-- Leftmost-position search for a head matcher. -/
def findTok (f : Str → Option ℕ) : Str → Option ℕ
  | [] => none
  | c :: cs =>
    match f (c :: cs) with
    | some n => some n
    | none => findTok f cs

/-- Embedding of `extract_pack_size`: the five patterns are each searched
over the whole name, in order, before the next one is tried. -/
def extract_pack_size (item_name : Str) : ℕ :=
  if item_name = [] then 1
  else
    match findTok (packTokAt (("ct").toList)) item_name with
    | some n => n
    | none =>
      match findTok (packTokAt (("pk").toList)) item_name with
      | some n => n
      | none =>
        match findTok (packTokAt (("count").toList)) item_name with
        | some n => n
        | none =>
          match findTok packPieceAt item_name with
          | some n => n
          | none =>
            match findTok (packTokAt (("pack").toList)) item_name with
            | some n => n
            | none => 1

/-- The alternation `(ct|pk|count|pieces?|pack)` in the regex's try order. -/
def altTokens : List Str :=
  (["ct", "pk", "count", "pieces", "piece", "pack"]).map String.toList

def findFirstTok : List Str → Str → Option Str
  | [], _ => none
  | t :: ts, r =>
    match tokWithB t r with
    | some rest => some rest
    | none => findFirstTok ts r

/-- Match `\s*\d+\s*(ct|pk|count|pieces?|pack)\b` at the head, returning the
remainder after the match. -/
def packSubAt (s : Str) : Option Str :=
  let w := s.span isWsp
  let d := w.2.span isDigitC
  if d.1.isEmpty then none
  else findFirstTok altTokens (d.2.dropWhile isWsp)

/-- `re.sub` of the pack-size pattern with empty replacement (fuel bound:
every match consumes at least three characters). -/
def packSubAll : ℕ → Str → Str
  | 0, s => s
  | _, [] => []
  | n + 1, c :: cs =>
    match packSubAt (c :: cs) with
    | some rest => packSubAll n rest
    | none => c :: packSubAll n cs

/-- Whole-tail match of `\s*Qty\s+\d+\s*\$?\s*` anchored at the end. -/
def qtySuffixTail (s : Str) : Bool :=
  let w := s.span isWsp
  match SamsReceipts.qtyCi w.2 with
  | none => false
  | some r =>
    let w1 := r.span isWsp
    !w1.1.isEmpty &&
      (let d := w1.2.span isDigitC
       !d.1.isEmpty &&
         (match d.2.dropWhile isWsp with
          | [] => true
          | '$' :: r3 => (r3.dropWhile isWsp).isEmpty
          | _ => false))

/-- `re.sub(r'\s*Qty\s+\d+\s*\$?\s*$', '', ·, IGNORECASE)`. -/
def qtySuffixStrip : Str → Str
  | [] => []
  | c :: cs => if qtySuffixTail (c :: cs) then [] else c :: qtySuffixStrip cs

/-- Whole-tail match of `\s*Canceled\s+items?\s*\(\d+\)\s*` anchored at the
end. -/
def canceledTail (s : Str) : Bool :=
  let w := s.span isWsp
  match literalCi (("canceled").toList) w.2 with
  | none => false
  | some r =>
    let w1 := r.span isWsp
    !w1.1.isEmpty &&
      (match literalCi (("item").toList) w1.2 with
       | none => false
       | some r2 =>
         let r3 := match r2 with
                   | c :: t => if lowerChar c = 's' then t else r2
                   | [] => r2
         match r3.dropWhile isWsp with
         | '(' :: r5 =>
           let d := r5.span isDigitC
           !d.1.isEmpty &&
             (match d.2 with
              | ')' :: r6 => (r6.dropWhile isWsp).isEmpty
              | _ => false)
         | _ => false)

/-- `re.sub(r'\s*Canceled\s+items?\s*\(\d+\)\s*$', '', ·, IGNORECASE)`. -/
def canceledStrip : Str → Str
  | [] => []
  | c :: cs => if canceledTail (c :: cs) then [] else c :: canceledStrip cs

/-- Embedding of the Sam's Club `normalize_item_name`: strip pack-size
tokens anywhere, collapse and trim whitespace, then drop a trailing
`Qty <n> [$]` and a trailing `Canceled item(s) (<n>)`. -/
def normalize_item_name (item_name : Str) : Str :=
  if item_name = [] then []
  else canceledStrip (qtySuffixStrip (stripWs (collapseWs (packSubAll item_name.length item_name))))

/-- An input row of the Sam's Club intermediate CSV (`date` omitted: the
collation never reads it into its outputs). -/
structure SamsRow where
  item : Str
  unit_number : ℕ
  cost : ℚ
deriving DecidableEq

/-- A name-keyed aggregation group. -/
structure SamsGroup where
  key : Str
  item : Str
  quantity : ℕ
  cost : ℚ
deriving DecidableEq

def rowKey (r : SamsRow) : Str := normalize_item_name r.item

/-- The groupby of `collate_sams_club_items`: per row, the actual quantity
is `unit_number * pack_size`; groups are keyed by the normalized name and
sum actual quantity and cost, keeping the first item name. -/
def collate_groups (rows : List SamsRow) : List SamsGroup :=
  (uniqKeys (rows.map rowKey)).map (fun k =>
    let mem := rows.filter (fun r => rowKey r = k)
    { key := k,
      item := ((mem.head?).map (fun r => r.item)).getD [],
      quantity := (mem.map (fun r => r.unit_number * extract_pack_size r.item)).sum,
      cost := (mem.map (fun r => r.cost)).sum })

/-- Embedding of `collate_sams_club_items` (over the parsed CSV rows). -/
def collate_sams_club_items (rows : List SamsRow) : List OutRow :=
  sortByCostDesc ((collate_groups rows).map (fun g => ⟨g.item, (g.quantity : ℤ), g.cost⟩))

end CollateSamsClub

/-! ## collate_costco_items.py -/

namespace CollateCostco

/-- Embedding of the Costco `normalize_item_name`: collapse whitespace runs
and trim. -/
def normalize_item_name (item_name : Str) : Str :=
  if item_name = [] then [] else stripWs (collapseWs item_name)

/-- The two shapes a call of `scrape_costco_item_info` can evaluate to: a
bare name (a plain string or `None`) or a `(name, unit_price)` pair. -/
inductive ScrapeResult where
  | bare (name : Option Str)
  | pair (name : Option Str) (price : Option ℚ)
deriving DecidableEq

def isPairShaped : ScrapeResult → Bool
  | .pair _ _ => true
  | .bare _ => false

/-- The outcome of the network interaction, factored out as an oracle:
either one of the caught exception classes, or a fetched page on which the
`h1` heuristic yields a name of length more than three, or not, in which
case the remaining heuristics produce an optional `(name, price)` (name
length more than three folded in). -/
inductive WebOutcome where
  | timeout
  | requestError
  | otherError
  | page (h1name : Option Str) (rest : Option (Str × Option ℚ))

/-- `if not item_code or pd.isna(item_code) or str(item_code).strip() == ''`. -/
def emptyCode (item_code : Option Str) : Bool :=
  match item_code with
  | none => true
  | some s => s.isEmpty || (stripWs s).isEmpty

/-- The heuristics after the `h1` early return. -/
def afterH1 (rest : Option (Str × Option ℚ)) (fallback_name : Option Str) : ScrapeResult :=
  match rest with
  | some np => ScrapeResult.pair (some np.1) np.2
  | none => ScrapeResult.pair fallback_name none

/-- Embedding of `scrape_costco_item_info`'s return-shape behaviour: the
empty-code early return yields the bare fallback name, a successful `h1`
lookup returns the bare scraped name, and every other path returns a pair. -/
def scrape_costco_item_info (item_code : Option Str) (fallback_name : Option Str)
    (web : WebOutcome) : ScrapeResult :=
  if emptyCode item_code then ScrapeResult.bare fallback_name
  else
    match web with
    | WebOutcome.timeout => ScrapeResult.pair fallback_name none
    | WebOutcome.requestError => ScrapeResult.pair fallback_name none
    | WebOutcome.otherError => ScrapeResult.pair fallback_name none
    | WebOutcome.page h1name rest =>
      match h1name with
      | some nm => if 3 < nm.length then ScrapeResult.bare (some nm) else afterH1 rest fallback_name
      | none => afterH1 rest fallback_name

/-- An input row of the Costco intermediate CSV (`item_code` is `none` when
the field is missing/NaN; `date` omitted as above). -/
structure CsvRow where
  item_code : Option Str
  item : Str
  unit_number : ℕ
  cost : ℚ
deriving DecidableEq

/-- A code-keyed first-pass group, after the optional lookup enrichment. -/
structure CGroup1 where
  code : Str
  item : Str
  cost : ℚ
  unit_number : ℕ
  scraped : Option ℚ
deriving DecidableEq

/-- A name-keyed second-pass group. -/
structure CGroup2 where
  item : Str
  cost : ℚ
  unit_number : ℕ
  scraped : Option ℚ
deriving DecidableEq

/-- First pass: `df.groupby('item_code')` — pandas drops rows whose key is
missing — aggregating `item` first, `cost` sum, `unit_number` sum. -/
def group_by_code (rows : List CsvRow) : List CGroup1 :=
  (uniqKeys (rows.filterMap (fun r => r.item_code))).map (fun k =>
    let mem := rows.filter (fun r => r.item_code = some k)
    { code := k,
      item := ((mem.head?).map (fun r => r.item)).getD [],
      cost := (mem.map (fun r => r.cost)).sum,
      unit_number := (mem.map (fun r => r.unit_number)).sum,
      scraped := none })

/-- The lookup-enrichment loop: the collaborator's effective result per code
is `none` when the scrape produced no name or echoed the fallback, and the
scraped unit price is kept only when truthy (non-`None` and non-zero). -/
def enrich (lookup : Str → Option (Str × Option ℚ)) (g : CGroup1) : CGroup1 :=
  match lookup g.code with
  | some np =>
    if !np.1.isEmpty && np.1 ≠ g.item then
      { g with item := np.1,
               scraped := np.2.bind (fun p => if p = 0 then none else some p) }
    else g
  | none => g

/-- Second pass: regroup by `normalize_item_name` of the (possibly renamed)
name, summing cost and unit count and keeping the first non-null scraped
price. -/
def group_by_name (gs : List CGroup1) : List CGroup2 :=
  (uniqKeys (gs.map (fun g => normalize_item_name g.item))).map (fun k =>
    let mem := gs.filter (fun g => normalize_item_name g.item = k)
    { item := ((mem.head?).map (fun g => g.item)).getD [],
      cost := (mem.map (fun g => g.cost)).sum,
      unit_number := (mem.map (fun g => g.unit_number)).sum,
      scraped := (mem.filterMap (fun g => g.scraped)).head? })

/-- The final groups of the collation, as a function of the lookup
collaborator and the input rows. -/
def costco_groups (lookup : Str → Option (Str × Option ℚ)) (rows : List CsvRow) :
    List CGroup2 :=
  group_by_name ((group_by_code rows).map (enrich lookup))

/-- `(aggregated['cost'] / aggregated['unit_number']).median()`.  (On a
group with `unit_number = 0` the embedding's rational division yields 0
where pandas floats yield an infinity; the theorems below restrict to
positive unit counts, where the two agree.) -/
def batchMedian (gs : List CGroup2) : ℚ :=
  pandasMedian (gs.map (fun g => g.cost / (g.unit_number : ℚ)))

/-- The rough-division fallback of the quantity loop. -/
def roughResolve (m : ℚ) (g : CGroup2) : ℤ :=
  let cpu := if 0 < g.unit_number then g.cost / (g.unit_number : ℚ) else g.cost
  if m * (3 / 2) < cpu then max (g.unit_number : ℤ) (pyRound (g.cost / m))
  else (g.unit_number : ℤ)

/-- The two quantity loops of `collate_costco_items` combined per group: a
positive scraped price wins, otherwise the cohort fallback applies. -/
def resolveQuantity (m : ℚ) (g : CGroup2) : ℤ :=
  match g.scraped with
  | some p => if 0 < p then max 1 (pyRound (g.cost / p)) else roughResolve m g
  | none => roughResolve m g

/-- Embedding of `collate_costco_items` over the CSV rows, parameterised by
the lookup collaborator. -/
def collate_costco_items (lookup : Str → Option (Str × Option ℚ)) (rows : List CsvRow) :
    List OutRow :=
  let gs := costco_groups lookup rows
  let m := batchMedian gs
  sortByCostDesc (gs.map (fun g => ⟨g.item, resolveQuantity m g, g.cost⟩))

/-- The always-failing collaborator: every lookup resolves to no usable
result (the "no external price" mode). -/
def noLookup : Str → Option (Str × Option ℚ) := fun _ => none

end CollateCostco

/-- Stated from the spec's words (§4.5 policy 3, claim C6), for comparison
with the pipeline's computation: the group's cost-per-unit (its total cost
when the raw quantity is 0) is compared against 1.5 times the batch median;
above it the quantity is re-estimated as `max(raw, round(cost / median))`,
otherwise the raw summed quantity is kept. -/
def specCohortRow (m : ℚ) (g : CollateCostco.CGroup2) : OutRow :=
  { item := g.item,
    quantity :=
      if (if 0 < g.unit_number then g.cost / (g.unit_number : ℚ) else g.cost) > 3 / 2 * m then
        max (g.unit_number : ℤ) (pyRound (g.cost / m))
      else (g.unit_number : ℤ),
    total_cost := g.cost }

/-- Letter-case equivalence: two strings agree characterwise up to ASCII
case. -/
def SameLower (x y : Str) : Prop := x.map lowerChar = y.map lowerChar

/-- The head, if any, is not whitespace. -/
def HeadNonWs (l : Str) : Prop := ∀ c, l.head? = some c → isWsp c = false

/-- The last character, if any, is not whitespace. -/
def LastNonWs (l : Str) : Prop := ∀ c, l.getLast? = some c → isWsp c = false

/-- Every whitespace character is a plain space. -/
def OnlySpaces (l : Str) : Prop := ∀ c ∈ l, isWsp c = true → c = ' '

/-- No two adjacent whitespace characters. -/
def NoRuns : Str → Prop := List.Chain' (fun a b => isWsp a = false ∨ isWsp b = false)

/-- The optional-flag suffix of a composed Format A full-form line: nothing,
or a space followed by the flag character. -/
def flagSfx : Option Char → Str
  | none => []
  | some c => [' ', c]

/-! ## Theorems

First the concrete counterexamples and closed facts, then the lemma
infrastructure for the universally quantified statements. -/

/-- C1 — counterexample.  A Format A line with explicit multiplier token 0
(`0 x`) and a Format B line with `Qty 0` are both emitted as records with
`quantity = 0`, so `quantity >= 1` fails for an emitted record, and so does
the price identity (`|total - unit*quantity| = 10` there). -/
theorem zero_multiplier_line_emits_quantity_zero :
    (ParseReceipts.parse_costco_receipt [(("E 100 0 x Widget 10.00 Y").toList)]).map
        (fun r => r.quantity) = [0] ∧
      (SamsReceipts.parse_sams_club_receipt [(("Widget Qty 0 $10.00").toList)]).map
        (fun r => (r.quantity, r.total_price - r.unit_price * (r.quantity : ℚ))) = [(0, 10)] := by
  decide

/-- C2 — counterexample.  `parse_costco_line` does not apply the validity
gate nor any `price > 0` check: the Format A line `E 123 GIFT 0.00` yields a
record (with an invalid name and zero price) rather than `None`. -/
theorem costco_line_parser_returns_record_for_gift_zero_line :
    ParseReceipts.parse_costco_line (("E 123 GIFT 0.00").toList) =
        some ⟨("123").toList, ("GIFT").toList, 1, 0, 0⟩ ∧
      ParseReceipts.is_valid_item (("GIFT").toList) = false := by
  decide

/-- C3 — counterexample.  Neither normalizer lower-cases the retained text:
two names differing only in letter case keep distinct normal forms, so they
are not merged. -/
theorem normalize_is_not_case_insensitive :
    CollateCostco.normalize_item_name (("Widget Deluxe").toList) ≠
        CollateCostco.normalize_item_name (("widget deluxe").toList) ∧
      CollateSamsClub.normalize_item_name (("Widget Deluxe").toList) ≠
        CollateSamsClub.normalize_item_name (("widget deluxe").toList) := by
  decide

/-- C4 — counterexample.  The Sam's Club normalizer is not idempotent:
removing the trailing `Canceled item (2)` exposes a trailing `Qty 3`, which
only a second application removes. -/
theorem sams_normalize_not_idempotent :
    CollateSamsClub.normalize_item_name
        (CollateSamsClub.normalize_item_name (("X Qty 3 Canceled item (2)").toList)) ≠
      CollateSamsClub.normalize_item_name (("X Qty 3 Canceled item (2)").toList) := by
  decide

/-- C5 — counterexample.  Two records with the same normalized name but
different pack sizes (`24 ct` and `12 ct`, one raw unit each) collate to
quantity `1*24 + 1*12 = 36`, which is neither `2 * 24` nor `2 * 12`: the
resolved quantity is the sum of per-record `raw * pack` products, not the
summed raw quantity times one pack size. -/
theorem mixed_pack_sizes_break_sum_times_pack :
    (CollateSamsClub.collate_sams_club_items
          [⟨("Widget 24 ct").toList, 1, 10⟩, ⟨("Widget 12 ct").toList, 1, 10⟩]).map
        (fun o => o.quantity) = [36] ∧
      (36 : ℤ) ≠ 2 * 24 ∧ (36 : ℤ) ≠ 2 * 12 := by
  decide

/-- C8 — the failing shape.  With an empty (or absent) item code the scrape
function returns the bare fallback name — not an `Optional[(name, price)]`
pair as its own docstring and the spec's collaborator contract require —
and a successful `h1` lookup likewise returns the bare scraped name. -/
theorem scrape_returns_bare_name_on_empty_code :
    CollateCostco.scrape_costco_item_info (some []) (some (("Widget").toList))
          CollateCostco.WebOutcome.timeout =
        CollateCostco.ScrapeResult.bare (some (("Widget").toList)) ∧
      CollateCostco.isPairShaped
          (CollateCostco.scrape_costco_item_info (some []) (some (("Widget").toList))
            CollateCostco.WebOutcome.timeout) = false ∧
      CollateCostco.isPairShaped
          (CollateCostco.scrape_costco_item_info (some (("123").toList)) none
            (CollateCostco.WebOutcome.page (some (("Kirkland Water 40pk").toList)) none)) =
        false := by
  decide

/-- C9.  The Sam's Club assembler skips — before any parsing — every line
whose upper-cased text contains a member of its header substring list; in
particular item lines whose names contain `ENERGY`, `ONE` or `WATER` (which
contain the two-letter members `NE` and `WA`) yield no record. -/
theorem sams_header_substring_lines_are_skipped :
    (∀ (l : Str) (ls : List Str),
        containsAnyUpper SamsReceipts.samsHeaderWords (stripWs l) = true →
        SamsReceipts.parse_sams_club_receipt (l :: ls) =
          SamsReceipts.parse_sams_club_receipt ls) ∧
      containsAnyUpper SamsReceipts.samsHeaderWords
          (("Red Bull Energy Sugar-Free 8.4 fl. oz., 24 pk. Qty 1 $34.98").toList) = true ∧
      containsAnyUpper SamsReceipts.samsHeaderWords
          (("One A Day Vitamins Qty 1 $9.99").toList) = true ∧
      containsAnyUpper SamsReceipts.samsHeaderWords
          (("Kirkland Bottled Water 40 pk Qty 2 $8.58").toList) = true := by
  refine ⟨fun l ls h => ?_, by decide, by decide, by decide⟩
  cases ls with
  | nil => simp [SamsReceipts.parse_sams_club_receipt, SamsReceipts.sams_go, h]
  | cons n rest => simp [SamsReceipts.parse_sams_club_receipt, SamsReceipts.sams_go, h]

/-- C9 — witness: the Format B example line is dropped whole by the
assembler (its upper-cased text contains the header substring `NE`). -/
theorem sams_header_substring_lines_are_skipped_witness :
    SamsReceipts.parse_sams_club_receipt
        [(("Red Bull Energy Sugar-Free 8.4 fl. oz., 24 pk. Qty 1 $34.98").toList)] =
      SamsReceipts.parse_sams_club_receipt [] :=
  sams_header_substring_lines_are_skipped.1
    (("Red Bull Energy Sugar-Free 8.4 fl. oz., 24 pk. Qty 1 $34.98").toList) [] (by decide)

/-- Filtering to rows that carry a code leaves the code list unchanged. -/
theorem filterMap_code_filter (rows : List CollateCostco.CsvRow) :
    (rows.filter (fun r => r.item_code.isSome)).filterMap (fun r => r.item_code) =
      rows.filterMap (fun r => r.item_code) := by
  induction rows with
  | nil => rfl
  | cons r rs ih =>
    cases h : r.item_code with
    | none => simp [List.filter_cons, List.filterMap_cons, h, ih]
    | some k => simp [List.filter_cons, List.filterMap_cons, h, ih]

/-- Filtering to rows that carry a code does not change any code-keyed
member list. -/
theorem filter_code_filter (rows : List CollateCostco.CsvRow) (k : Str) :
    (rows.filter (fun r => r.item_code.isSome)).filter (fun r => r.item_code = some k) =
      rows.filter (fun r => r.item_code = some k) := by
  induction rows with
  | nil => rfl
  | cons r rs ih =>
    cases h : r.item_code with
    | none => simp [List.filter_cons, h, ih]
    | some k' => by_cases hk : k' = k <;> simp [List.filter_cons, h, hk, ih]

/-- The code-keyed first pass ignores rows with a missing code entirely. -/
theorem group_by_code_drops_codeless (rows : List CollateCostco.CsvRow) :
    CollateCostco.group_by_code (rows.filter (fun r => r.item_code.isSome)) =
      CollateCostco.group_by_code rows := by
  unfold CollateCostco.group_by_code
  rw [filterMap_code_filter]
  refine List.map_congr_left (fun k _ => ?_)
  rw [filter_code_filter]

/-- C10.  Rows whose `item_code` is absent are dropped by the collator's
code-keyed first pass: the whole collation output — every row and hence the
output's total cost — is the same as if those rows were not present, for
any lookup collaborator. -/
theorem rows_without_item_code_are_dropped
    (lookup : Str → Option (Str × Option ℚ)) (rows : List CollateCostco.CsvRow) :
    CollateCostco.collate_costco_items lookup rows =
      CollateCostco.collate_costco_items lookup
        (rows.filter (fun r => r.item_code.isSome)) := by
  unfold CollateCostco.collate_costco_items CollateCostco.costco_groups
  rw [group_by_code_drops_codeless]

/-- With the always-failing collaborator the enrichment step is the
identity. -/
theorem enrich_noLookup : CollateCostco.enrich CollateCostco.noLookup = id := by
  funext g
  rfl

/-- Shape of the final groups when no lookup succeeds. -/
theorem costco_groups_noLookup (rows : List CollateCostco.CsvRow) :
    CollateCostco.costco_groups CollateCostco.noLookup rows =
      CollateCostco.group_by_name (CollateCostco.group_by_code rows) := by
  unfold CollateCostco.costco_groups
  rw [enrich_noLookup, List.map_id]

/-- Every first-pass group starts with no scraped price. -/
theorem group_by_code_scraped (rows : List CollateCostco.CsvRow) :
    ∀ g ∈ CollateCostco.group_by_code rows, g.scraped = none := by
  intro g hg
  unfold CollateCostco.group_by_code at hg
  rw [List.mem_map] at hg
  obtain ⟨k, _, rfl⟩ := hg
  rfl

/-- With no external price available, every final group carries no scraped
price. -/
theorem costco_groups_noLookup_scraped (rows : List CollateCostco.CsvRow) :
    ∀ g ∈ CollateCostco.costco_groups CollateCostco.noLookup rows, g.scraped = none := by
  intro g hg
  rw [costco_groups_noLookup] at hg
  unfold CollateCostco.group_by_name at hg
  rw [List.mem_map] at hg
  obtain ⟨k, _, rfl⟩ := hg
  simp only []
  rw [List.head?_eq_none_iff]
  rw [List.filterMap_eq_nil_iff]
  intro g' hg'
  exact group_by_code_scraped rows g' (List.mem_of_mem_filter hg')

/-- C6.  In the no-external-price mode, for batches where every final group
has a positive raw quantity and the batch median cost-per-unit is positive
(so the embedded rational arithmetic agrees with the float arithmetic), the
collator's output is exactly the spec's cohort-fallback policy applied to
every final group: quantity `max(raw, round(cost/median))` when the group's
cost-per-unit exceeds 1.5 times the batch median, and the raw summed
quantity unchanged otherwise. -/
theorem cohort_fallback_matches_spec_policy (rows : List CollateCostco.CsvRow)
    (hu : ∀ g ∈ CollateCostco.costco_groups CollateCostco.noLookup rows, 0 < g.unit_number)
    (hm : 0 < CollateCostco.batchMedian (CollateCostco.costco_groups CollateCostco.noLookup rows)) :
    CollateCostco.collate_costco_items CollateCostco.noLookup rows =
      sortByCostDesc
        ((CollateCostco.costco_groups CollateCostco.noLookup rows).map
          (specCohortRow
            (CollateCostco.batchMedian (CollateCostco.costco_groups CollateCostco.noLookup rows)))) := by
  unfold CollateCostco.collate_costco_items
  refine congrArg sortByCostDesc (List.map_congr_left (fun g hg => ?_))
  have hs := costco_groups_noLookup_scraped rows g hg
  unfold CollateCostco.resolveQuantity specCohortRow CollateCostco.roughResolve
  rw [hs]
  have : CollateCostco.batchMedian (CollateCostco.costco_groups CollateCostco.noLookup rows) * (3 / 2) =
      3 / 2 * CollateCostco.batchMedian (CollateCostco.costco_groups CollateCostco.noLookup rows) :=
    mul_comm _ _
  rw [this]

/-- C6 — witness: a batch of three single-row groups with costs 5, 5 and 9
has median cost-per-unit 5; the third group's cost-per-unit 9 exceeds 7.5,
so its quantity is re-estimated as `round(9/5) = 2`, while the others keep
quantity 1; rows come out sorted by cost. -/
theorem cohort_fallback_matches_spec_policy_witness :
    CollateCostco.collate_costco_items CollateCostco.noLookup
        [⟨some (("1").toList), ("A").toList, 1, 5⟩, ⟨some (("2").toList), ("B").toList, 1, 5⟩,
          ⟨some (("3").toList), ("C").toList, 1, 9⟩] =
      [⟨("C").toList, 2, 9⟩, ⟨("A").toList, 1, 5⟩, ⟨("B").toList, 1, 5⟩] :=
  (cohort_fallback_matches_spec_policy
      [⟨some (("1").toList), ("A").toList, 1, 5⟩, ⟨some (("2").toList), ("B").toList, 1, 5⟩,
        ⟨some (("3").toList), ("C").toList, 1, 9⟩]
      (by decide) (by decide)).trans (by decide)

/-! ### Character-level facts -/

/-- A character predicate invariant under a pair rewrite list is invariant
under `mapChar`. -/
theorem mapChar_pred (f : Char → Bool) (ps : List (Char × Char)) (c : Char)
    (h : ∀ p ∈ ps, f p.2 = f p.1) : f (mapChar ps c) = f c := by
  induction ps with
  | nil => rfl
  | cons p t ih =>
    unfold mapChar
    by_cases hc : c = p.1
    · rw [if_pos hc, h p (List.mem_cons_self p t), hc]
    · rw [if_neg hc]
      exact ih (fun q hq => h q (List.mem_cons_of_mem p hq))

/-- `mapChar` fixes any character outside the rewrite keys, stated via a
separating predicate. -/
theorem mapChar_eq_self (f : Char → Bool) (ps : List (Char × Char)) (c : Char)
    (hkeys : ∀ p ∈ ps, f p.1 = false) (hc : f c = true) : mapChar ps c = c := by
  induction ps with
  | nil => rfl
  | cons p t ih =>
    unfold mapChar
    by_cases h : c = p.1
    · rw [h] at hc
      rw [hkeys p (List.mem_cons_self p t)] at hc
      exact absurd hc (by simp)
    · rw [if_neg h]
      exact ih (fun q hq => hkeys q (List.mem_cons_of_mem p hq))

/-- Lower-casing does not change whitespace status. -/
theorem isWsp_lowerChar (c : Char) : isWsp (lowerChar c) = isWsp c :=
  mapChar_pred isWsp lowPairs c (by decide)

/-- Lower-casing fixes whitespace characters. -/
theorem lowerChar_of_wsp (c : Char) (h : isWsp c = true) : lowerChar c = c :=
  mapChar_eq_self isWsp lowPairs c (by decide) h

/-- Digits are not whitespace. -/
theorem not_wsp_of_digit (c : Char) (h : isDigitC c = true) : isWsp c = false := by
  cases hw : isWsp c
  · rfl
  · exfalso
    unfold isWsp at hw
    simp only [Bool.or_eq_true, decide_eq_true_eq] at hw
    rcases hw with ((((h1 | h1) | h1) | h1) | h1) | h1 <;> subst h1 <;> revert h <;> decide

/-! ### Whitespace scanning lemmas -/

theorem headNonWs_dropWhile (l : Str) : HeadNonWs (l.dropWhile isWsp) := by
  induction l with
  | nil => intro c hc; simp at hc
  | cons a t ih =>
    intro c hc
    by_cases ha : isWsp a
    · rw [List.dropWhile_cons_of_pos ha] at hc
      exact ih c hc
    · rw [List.dropWhile_cons_of_neg ha] at hc
      simp at hc
      rw [← hc]
      exact Bool.of_not_eq_true ha

theorem dropWhile_eq_self_of_head (l : Str) (h : HeadNonWs l) : l.dropWhile isWsp = l := by
  cases l with
  | nil => rfl
  | cons a t =>
    have := h a rfl
    rw [List.dropWhile_cons_of_neg (by rw [this]; simp)]

theorem getLast?_cons_of_ne_nil (c : Char) (l : Str) (h : l ≠ []) :
    (c :: l).getLast? = l.getLast? := by
  cases l with
  | nil => exact absurd rfl h
  | cons a t => simp [List.getLast?_cons_cons]

theorem lastNonWs_dropTrailingWs (l : Str) : LastNonWs (dropTrailingWs l) := by
  induction l with
  | nil => intro c hc; simp [dropTrailingWs] at hc
  | cons a t ih =>
    intro c hc
    unfold dropTrailingWs at hc
    cases hd : dropTrailingWs t with
    | nil =>
      rw [hd] at hc
      by_cases ha : isWsp a
      · rw [if_pos ha] at hc; simp at hc
      · rw [if_neg ha] at hc
        simp at hc
        rw [← hc]
        exact Bool.of_not_eq_true ha
    | cons b r =>
      rw [hd] at hc
      rw [getLast?_cons_of_ne_nil a (b :: r) (by simp)] at hc
      rw [← hd] at hc
      exact ih c hc

theorem dropTrailingWs_eq_self (l : Str) (h : LastNonWs l) : dropTrailingWs l = l := by
  induction l with
  | nil => rfl
  | cons a t ih =>
    cases ht : t with
    | nil =>
      subst ht
      have ha : isWsp a = false := h a rfl
      simp [dropTrailingWs, ha]
    | cons b r =>
      subst ht
      have hlast : LastNonWs (b :: r) := by
        intro c hc
        exact h c (by rw [getLast?_cons_of_ne_nil a (b :: r) (by simp)]; exact hc)
      unfold dropTrailingWs
      rw [ih hlast]

theorem dropTrailingWs_head? (l : Str) :
    (dropTrailingWs l).head? = none ∨ (dropTrailingWs l).head? = l.head? := by
  cases l with
  | nil => left; rfl
  | cons a t =>
    unfold dropTrailingWs
    cases dropTrailingWs t with
    | nil =>
      by_cases ha : isWsp a
      · left; simp [ha]
      · right; simp [ha]
    | cons b r => right; rfl

theorem dropTrailingWs_isPrefix (l : Str) : dropTrailingWs l <+: l := by
  induction l with
  | nil => exact List.nil_prefix
  | cons a t ih =>
    cases hd : dropTrailingWs t with
    | nil =>
      by_cases ha : isWsp a <;>
        simp [dropTrailingWs, hd, ha, List.nil_prefix]
    | cons b r =>
      have he : dropTrailingWs (a :: t) = a :: b :: r := by
        unfold dropTrailingWs
        rw [hd]
      rw [he, ← hd]
      exact List.cons_prefix_cons.mpr ⟨rfl, ih⟩

theorem headNonWs_stripWs (l : Str) : HeadNonWs (stripWs l) := by
  intro c hc
  unfold stripWs at hc
  rcases dropTrailingWs_head? (l.dropWhile isWsp) with h | h
  · rw [h] at hc; exact absurd hc (by simp)
  · rw [h] at hc
    exact headNonWs_dropWhile l c hc

theorem lastNonWs_stripWs (l : Str) : LastNonWs (stripWs l) :=
  lastNonWs_dropTrailingWs (l.dropWhile isWsp)

theorem stripWs_eq_self (l : Str) (h1 : HeadNonWs l) (h2 : LastNonWs l) : stripWs l = l := by
  unfold stripWs
  rw [dropWhile_eq_self_of_head l h1, dropTrailingWs_eq_self l h2]

theorem stripWs_idem (l : Str) : stripWs (stripWs l) = stripWs l :=
  stripWs_eq_self (stripWs l) (headNonWs_stripWs l) (lastNonWs_stripWs l)

theorem takeWhile_all_append (p : Char → Bool) (l : Str) (x : Char) (xs : Str)
    (hl : ∀ c ∈ l, p c = true) (hx : p x = false) :
    (l ++ x :: xs).takeWhile p = l := by
  induction l with
  | nil => simp [List.takeWhile_cons, hx]
  | cons a t ih =>
    rw [List.cons_append, List.takeWhile_cons_of_pos (hl a (List.mem_cons_self a t))]
    rw [ih (fun c hc => hl c (List.mem_cons_of_mem a hc))]

theorem dropWhile_all_append (p : Char → Bool) (l : Str) (x : Char) (xs : Str)
    (hl : ∀ c ∈ l, p c = true) (hx : p x = false) :
    (l ++ x :: xs).dropWhile p = x :: xs := by
  induction l with
  | nil => simp [List.dropWhile_cons, hx]
  | cons a t ih =>
    rw [List.cons_append, List.dropWhile_cons_of_pos (hl a (List.mem_cons_self a t))]
    exact ih (fun c hc => hl c (List.mem_cons_of_mem a hc))

theorem span_all_append (p : Char → Bool) (l : Str) (x : Char) (xs : Str)
    (hl : ∀ c ∈ l, p c = true) (hx : p x = false) :
    (l ++ x :: xs).span p = (l, x :: xs) := by
  rw [List.span_eq_take_drop, takeWhile_all_append p l x xs hl hx,
    dropWhile_all_append p l x xs hl hx]

/-! ### Collapse lemmas -/

theorem collapseWs_ne_nil (l : Str) (h : l ≠ []) : collapseWs l ≠ [] := by
  cases l with
  | nil => exact absurd rfl h
  | cons a t =>
    unfold collapseWs collapseAux
    by_cases ha : isWsp a
    · rw [if_pos ha]; simp
    · rw [if_neg ha]; simp

theorem collapseAux_cons_ws_true (a : Char) (t : Str) (ha : isWsp a = true) :
    collapseAux true (a :: t) = collapseAux true t := by
  simp [collapseAux, ha]

theorem collapseAux_cons_ws_false (a : Char) (t : Str) (ha : isWsp a = true) :
    collapseAux false (a :: t) = ' ' :: collapseAux true t := by
  simp [collapseAux, ha]

theorem collapseAux_cons_nonws (b : Bool) (a : Char) (t : Str) (ha : isWsp a = false) :
    collapseAux b (a :: t) = a :: collapseAux false t := by
  simp [collapseAux, ha]

theorem collapseAux_onlySpaces (b : Bool) (l : Str) : OnlySpaces (collapseAux b l) := by
  induction l generalizing b with
  | nil => intro c hc; simp [collapseAux] at hc
  | cons a t ih =>
    intro c hc hw
    by_cases ha : isWsp a
    · cases b with
      | true =>
        rw [collapseAux_cons_ws_true a t ha] at hc
        exact ih true c hc hw
      | false =>
        rw [collapseAux_cons_ws_false a t ha] at hc
        rcases List.mem_cons.mp hc with h | h
        · exact h
        · exact ih true c h hw
    · rw [collapseAux_cons_nonws b a t (Bool.of_not_eq_true ha)] at hc
      rcases List.mem_cons.mp hc with h | h
      · subst h
        exact absurd hw (by rw [Bool.of_not_eq_true ha]; simp)
      · exact ih false c h hw

theorem collapseAux_true_headNonWs (l : Str) : HeadNonWs (collapseAux true l) := by
  induction l with
  | nil => intro c hc; simp [collapseAux] at hc
  | cons a t ih =>
    intro c hc
    by_cases ha : isWsp a
    · rw [collapseAux_cons_ws_true a t ha] at hc
      exact ih c hc
    · rw [collapseAux_cons_nonws true a t (Bool.of_not_eq_true ha)] at hc
      simp at hc
      exact hc ▸ Bool.of_not_eq_true ha

theorem collapseAux_noRuns (b : Bool) (l : Str) : NoRuns (collapseAux b l) := by
  induction l generalizing b with
  | nil => exact List.chain'_nil
  | cons a t ih =>
    by_cases ha : isWsp a
    · cases b with
      | true =>
        rw [collapseAux_cons_ws_true a t ha]
        exact ih true
      | false =>
        rw [collapseAux_cons_ws_false a t ha]
        rw [NoRuns, List.chain'_cons']
        exact ⟨fun d hd => Or.inr (collapseAux_true_headNonWs t d hd), ih true⟩
    · rw [collapseAux_cons_nonws b a t (Bool.of_not_eq_true ha)]
      rw [NoRuns, List.chain'_cons']
      exact ⟨fun d _ => Or.inl (Bool.of_not_eq_true ha), ih false⟩

theorem collapseAux_eq_self (l : Str) (hs : OnlySpaces l) (hr : NoRuns l) :
    collapseAux false l = l ∧ (HeadNonWs l → collapseAux true l = l) := by
  induction l with
  | nil => exact ⟨rfl, fun _ => rfl⟩
  | cons a t ih =>
    have hst : OnlySpaces t := fun c hc hw => hs c (List.mem_cons_of_mem a hc) hw
    have hrt : NoRuns t := (List.chain'_cons'.mp hr).2
    have iht := ih hst hrt
    by_cases ha : isWsp a
    · have haSp : a = ' ' := hs a (List.mem_cons_self a t) ha
      have hht : HeadNonWs t := by
        intro d hd
        rcases (List.chain'_cons'.mp hr).1 d hd with h | h
        · rw [ha] at h; exact absurd h (by simp)
        · exact h
      constructor
      · rw [collapseAux_cons_ws_false a t ha, iht.2 hht, haSp]
      · intro hh
        have := hh a rfl
        rw [ha] at this
        exact absurd this (by simp)
    · have ha' := Bool.of_not_eq_true ha
      constructor
      · rw [collapseAux_cons_nonws false a t ha', iht.1]
      · intro _
        rw [collapseAux_cons_nonws true a t ha', iht.1]

theorem onlySpaces_of_sublist (l l' : Str) (h : List.Sublist l' l) (hs : OnlySpaces l) : OnlySpaces l' :=
  fun c hc hw => hs c (h.mem hc) hw

theorem noRuns_dropWhile (l : Str) (h : NoRuns l) : NoRuns (l.dropWhile isWsp) :=
  List.Chain'.suffix h (List.dropWhile_suffix isWsp)

theorem noRuns_dropTrailingWs (l : Str) (h : NoRuns l) : NoRuns (dropTrailingWs l) :=
  List.Chain'.prefix h (dropTrailingWs_isPrefix l)

theorem onlySpaces_stripWs (l : Str) (h : OnlySpaces l) : OnlySpaces (stripWs l) := by
  refine onlySpaces_of_sublist l (stripWs l) ?_ h
  exact ((dropTrailingWs_isPrefix (l.dropWhile isWsp)).sublist).trans (List.dropWhile_sublist isWsp)

theorem noRuns_stripWs (l : Str) (h : NoRuns l) : NoRuns (stripWs l) :=
  noRuns_dropTrailingWs (l.dropWhile isWsp) (noRuns_dropWhile l h)

/-- C4 — amended, the part that holds: the Costco (whitespace-collapsing)
normalizer is idempotent on every string. -/
theorem costco_normalize_idempotent (x : Str) :
    CollateCostco.normalize_item_name (CollateCostco.normalize_item_name x) =
      CollateCostco.normalize_item_name x := by
  unfold CollateCostco.normalize_item_name
  by_cases hx : x = []
  · simp [hx]
  · rw [if_neg hx]
    set y := stripWs (collapseWs x) with hy
    by_cases hyn : y = []
    · simp [hyn]
    · rw [if_neg hyn]
      have hs : OnlySpaces y := onlySpaces_stripWs (collapseWs x) (collapseAux_onlySpaces false x)
      have hr : NoRuns y := noRuns_stripWs (collapseWs x) (collapseAux_noRuns false x)
      have hcy : collapseWs y = y := (collapseAux_eq_self y hs hr).1
      rw [hcy, hy, stripWs_idem]

/-! ### Case-preservation lemmas -/

theorem map_lower_collapseAux (b : Bool) (l : Str) :
    (collapseAux b l).map lowerChar = collapseAux b (l.map lowerChar) := by
  induction l generalizing b with
  | nil => rfl
  | cons a t ih =>
    by_cases ha : isWsp a
    · have ha' : isWsp (lowerChar a) = true := by rw [isWsp_lowerChar]; exact ha
      cases b with
      | true =>
        rw [collapseAux_cons_ws_true a t ha, List.map_cons,
          collapseAux_cons_ws_true (lowerChar a) (t.map lowerChar) ha']
        exact ih true
      | false =>
        have h1 : List.map lowerChar (a :: t) = lowerChar a :: t.map lowerChar :=
          List.map_cons lowerChar a t
        rw [collapseAux_cons_ws_false a t ha, h1,
          collapseAux_cons_ws_false (lowerChar a) (t.map lowerChar) ha', List.map_cons, ih true]
        rfl
    · have ha0 := Bool.of_not_eq_true ha
      have ha' : isWsp (lowerChar a) = false := by rw [isWsp_lowerChar]; exact ha0
      rw [collapseAux_cons_nonws b a t ha0, List.map_cons, List.map_cons,
        collapseAux_cons_nonws b (lowerChar a) (t.map lowerChar) ha', ih false]

theorem map_lower_dropWhile (l : Str) :
    (l.dropWhile isWsp).map lowerChar = (l.map lowerChar).dropWhile isWsp := by
  induction l with
  | nil => rfl
  | cons a t ih =>
    by_cases ha : isWsp a
    · have ha' : isWsp (lowerChar a) = true := by rw [isWsp_lowerChar]; exact ha
      rw [List.dropWhile_cons_of_pos ha, List.map_cons, List.dropWhile_cons_of_pos ha']
      exact ih
    · have ha' : ¬ isWsp (lowerChar a) = true := by rw [isWsp_lowerChar]; exact ha
      rw [List.dropWhile_cons_of_neg ha, List.map_cons, List.dropWhile_cons_of_neg ha']

theorem sameLower_cons (c d : Char) (cs ds : Str) (h : SameLower (c :: cs) (d :: ds)) :
    lowerChar c = lowerChar d ∧ SameLower cs ds := by
  unfold SameLower at h ⊢
  rw [List.map_cons, List.map_cons] at h
  exact ⟨(List.cons.injEq _ _ _ _ ▸ h).1, (List.cons.injEq _ _ _ _ ▸ h).2⟩

theorem sameLower_wsp (c d : Char) (h : lowerChar c = lowerChar d) : isWsp c = isWsp d := by
  rw [← isWsp_lowerChar c, h, isWsp_lowerChar]

theorem sameLower_wsp_eq (c d : Char) (h : lowerChar c = lowerChar d) (hw : isWsp c = true) :
    c = d := by
  have hd : isWsp d = true := by rw [← sameLower_wsp c d h]; exact hw
  rw [← lowerChar_of_wsp c hw, h, lowerChar_of_wsp d hd]

theorem collapseAux_inj (x : Str) : ∀ (y : Str) (b : Bool), SameLower x y →
    collapseAux b x = collapseAux b y → x = y := by
  induction x with
  | nil =>
    intro y b hsl _
    have : y.map lowerChar = [] := hsl.symm
    rw [List.map_eq_nil_iff] at this
    rw [this]
  | cons c cs ih =>
    intro y b hsl heq
    cases y with
    | nil =>
      have : (c :: cs).map lowerChar = [] := hsl
      simp at this
    | cons d ds =>
      obtain ⟨hcd, hrest⟩ := sameLower_cons c d cs ds hsl
      by_cases hwc : isWsp c
      · have hcEq : c = d := sameLower_wsp_eq c d hcd hwc
        have hwd : isWsp d = true := by rw [← sameLower_wsp c d hcd]; exact hwc
        cases b with
        | true =>
          rw [collapseAux_cons_ws_true c cs hwc, collapseAux_cons_ws_true d ds hwd] at heq
          rw [hcEq, ih ds true hrest heq]
        | false =>
          rw [collapseAux_cons_ws_false c cs hwc, collapseAux_cons_ws_false d ds hwd] at heq
          simp at heq
          rw [hcEq, ih ds true hrest heq]
      · have hwc0 := Bool.of_not_eq_true hwc
        have hwd : isWsp d = false := by rw [← sameLower_wsp c d hcd]; exact hwc0
        rw [collapseAux_cons_nonws b c cs hwc0, collapseAux_cons_nonws b d ds hwd] at heq
        simp at heq
        rw [heq.1, ih ds false hrest heq.2]

theorem dropWhile_ws_inj (x : Str) : ∀ (y : Str), SameLower x y →
    x.dropWhile isWsp = y.dropWhile isWsp → x = y := by
  induction x with
  | nil =>
    intro y hsl _
    have : y.map lowerChar = [] := hsl.symm
    rw [List.map_eq_nil_iff] at this
    rw [this]
  | cons c cs ih =>
    intro y hsl heq
    cases y with
    | nil =>
      have : (c :: cs).map lowerChar = [] := hsl
      simp at this
    | cons d ds =>
      obtain ⟨hcd, hrest⟩ := sameLower_cons c d cs ds hsl
      by_cases hwc : isWsp c
      · have hcEq : c = d := sameLower_wsp_eq c d hcd hwc
        have hwd : isWsp d = true := by rw [← sameLower_wsp c d hcd]; exact hwc
        rw [List.dropWhile_cons_of_pos hwc, List.dropWhile_cons_of_pos hwd] at heq
        rw [hcEq, ih ds hrest heq]
      · have hwd : ¬ isWsp d = true := by rw [← sameLower_wsp c d hcd]; exact hwc
        rw [List.dropWhile_cons_of_neg hwc, List.dropWhile_cons_of_neg hwd] at heq
        exact heq

theorem dropTrailingWs_inj (x : Str) : ∀ (y : Str), SameLower x y →
    dropTrailingWs x = dropTrailingWs y → x = y := by
  induction x with
  | nil =>
    intro y hsl _
    have : y.map lowerChar = [] := hsl.symm
    rw [List.map_eq_nil_iff] at this
    rw [this]
  | cons c cs ih =>
    intro y hsl heq
    cases y with
    | nil =>
      have : (c :: cs).map lowerChar = [] := hsl
      simp at this
    | cons d ds =>
      obtain ⟨hcd, hrest⟩ := sameLower_cons c d cs ds hsl
      have hww : isWsp c = isWsp d := sameLower_wsp c d hcd
      cases hcs : dropTrailingWs cs with
      | nil =>
        cases hds : dropTrailingWs ds with
        | nil =>
          have hcsds : cs = ds := ih ds hrest (hcs.trans hds.symm)
          unfold dropTrailingWs at heq
          rw [hcs, hds] at heq
          by_cases hwc : isWsp c
          · rw [hcsds, sameLower_wsp_eq c d hcd hwc]
          · have hwd : ¬ isWsp d = true := by rw [← hww]; exact hwc
            rw [if_neg hwc, if_neg hwd] at heq
            simp at heq
            rw [heq, hcsds]
        | cons e r =>
          unfold dropTrailingWs at heq
          rw [hcs, hds] at heq
          by_cases hwc : isWsp c
          · rw [if_pos hwc] at heq; simp at heq
          · rw [if_neg hwc] at heq; simp at heq
      | cons e r =>
        cases hds : dropTrailingWs ds with
        | nil =>
          unfold dropTrailingWs at heq
          rw [hcs, hds] at heq
          by_cases hwd : isWsp d
          · rw [if_pos hwd] at heq; simp at heq
          · rw [if_neg hwd] at heq; simp at heq
        | cons f r2 =>
          unfold dropTrailingWs at heq
          rw [hcs, hds] at heq
          simp at heq
          have hcsds : cs = ds := ih ds hrest (by rw [hcs, hds, heq.2.1, heq.2.2])
          rw [heq.1, hcsds]

/-- C3 — amended.  The normalizers preserve letter case in the retained
text (only token matching is case-insensitive), so two distinct names that
differ only in case keep distinct normal forms under the Costco normalizer
— for every such pair — and are therefore not merged; the Sam's Club
variant behaves the same on the running example, producing two separate
collated rows. -/
theorem case_variants_have_distinct_normal_forms :
    (∀ x y : Str, SameLower x y → x ≠ y →
        CollateCostco.normalize_item_name x ≠ CollateCostco.normalize_item_name y) ∧
      CollateSamsClub.normalize_item_name (("Widget Deluxe").toList) ≠
        CollateSamsClub.normalize_item_name (("widget deluxe").toList) ∧
      (CollateSamsClub.collate_sams_club_items
          [⟨("Widget Deluxe").toList, 1, 10⟩, ⟨("widget deluxe").toList, 1, 10⟩]).length = 2 := by
  refine ⟨fun x y hsl hne heq => hne ?_, by decide, by decide⟩
  unfold CollateCostco.normalize_item_name at heq
  by_cases hx : x = []
  · subst hx
    have : y.map lowerChar = [] := hsl.symm
    rw [List.map_eq_nil_iff] at this
    rw [this]
  · have hy : y ≠ [] := by
      intro hy0
      subst hy0
      have : x.map lowerChar = [] := hsl
      rw [List.map_eq_nil_iff] at this
      exact hx this
    rw [if_neg hx, if_neg hy] at heq
    have hslc : SameLower (collapseWs x) (collapseWs y) := by
      unfold SameLower collapseWs
      rw [map_lower_collapseAux false x, map_lower_collapseAux false y]
      unfold SameLower at hsl
      rw [hsl]
    have hsld : SameLower ((collapseWs x).dropWhile isWsp) ((collapseWs y).dropWhile isWsp) := by
      unfold SameLower
      rw [map_lower_dropWhile, map_lower_dropWhile]
      unfold SameLower at hslc
      rw [hslc]
    have h1 : (collapseWs x).dropWhile isWsp = (collapseWs y).dropWhile isWsp :=
      dropTrailingWs_inj ((collapseWs x).dropWhile isWsp) ((collapseWs y).dropWhile isWsp)
        hsld heq
    have h2 : collapseWs x = collapseWs y :=
      dropWhile_ws_inj (collapseWs x) (collapseWs y) hslc h1
    exact collapseAux_inj x y false hsl h2

/-- C3 — witness: `Widget A` and `widget a` differ only in case, and their
Costco normal forms are distinct. -/
theorem case_variants_have_distinct_normal_forms_witness :
    CollateCostco.normalize_item_name (("Widget A").toList) ≠
      CollateCostco.normalize_item_name (("widget a").toList) :=
  case_variants_have_distinct_normal_forms.1 (("Widget A").toList) (("widget a").toList)
    (by unfold SameLower; decide) (by decide)

/-! ### Parser soundness lemmas -/

@[simp]
theorem mkParsedRec_item_name (code name : Str) (q : ℕ) (p : ℚ) :
    (mkParsedRec code name q p).item_name = name := rfl

@[simp]
theorem mkParsedRec_quantity (code name : Str) (q : ℕ) (p : ℚ) :
    (mkParsedRec code name q p).quantity = q := rfl

@[simp]
theorem mkParsedRec_total_price (code name : Str) (q : ℕ) (p : ℚ) :
    (mkParsedRec code name q p).total_price = p := rfl

/-- The price identity for every parser record with a positive quantity. -/
theorem mkParsedRec_price (code name : Str) (q : ℕ) (p : ℚ) (hq : 1 ≤ q) :
    (mkParsedRec code name q p).unit_price * ((mkParsedRec code name q p).quantity : ℚ) =
      (mkParsedRec code name q p).total_price := by
  unfold mkParsedRec
  by_cases h : 1 < q
  · simp only [if_pos h]
    exact div_mul_cancel₀ p (Nat.cast_ne_zero.mpr (by omega))
  · have hq1 : q = 1 := by omega
    subst hq1
    simp

/-- Every record returned by `parse_costco_line` is a `mkParsedRec`. -/
theorem parse_costco_line_shape (l : Str) (r : ItemRec)
    (h : ParseReceipts.parse_costco_line l = some r) :
    ∃ code name q p, r = mkParsedRec code name q p := by
  simp only [ParseReceipts.parse_costco_line] at h
  repeat' split at h
  all_goals try exact Option.noConfusion h
  all_goals injection h with h
  all_goals subst h
  case _ rv heq =>
    repeat' split at heq
    all_goals try exact Option.noConfusion heq
    all_goals injection heq with heq
    all_goals subst heq
    all_goals exact ⟨_, _, _, _, rfl⟩
  all_goals exact ⟨_, _, _, _, rfl⟩

/-- Every record returned by `parse_sams_club_line` is a `mkParsedRec`. -/
theorem parse_sams_club_line_shape (l : Str) (r : ItemRec)
    (h : SamsReceipts.parse_sams_club_line l = some r) :
    ∃ code name q p, r = mkParsedRec code name q p := by
  simp only [SamsReceipts.parse_sams_club_line] at h
  repeat' split at h
  all_goals try exact Option.noConfusion h
  all_goals injection h with h
  all_goals subst h
  case _ rv heq =>
    repeat' split at heq
    all_goals try exact Option.noConfusion heq
    all_goals injection heq with heq
    all_goals subst heq
    all_goals exact ⟨_, _, _, _, rfl⟩
  all_goals exact ⟨_, _, _, _, rfl⟩

/-- C2 — amended.  The dedicated Sam's Club line parser returns a record
only when a pattern matched, the name passed the validity gate, and the
price is positive (hence `None` whenever any of these fails); the Costco
line parser, by contrast, applies neither check and returns a record for
`E 123 GIFT 0.00`. -/
theorem sams_line_parser_validity_gate :
    (∀ (line : Str) (r : ItemRec), SamsReceipts.parse_sams_club_line line = some r →
        r.item_name ≠ [] ∧ SamsReceipts.is_valid_item r.item_name = true ∧
          0 < r.total_price) ∧
      (ParseReceipts.parse_costco_line (("E 123 GIFT 0.00").toList)).isSome = true := by
  refine ⟨fun line r h => ?_, by decide⟩
  simp only [SamsReceipts.parse_sams_club_line] at h
  repeat' split at h
  all_goals try exact Option.noConfusion h
  all_goals injection h with h
  all_goals subst h
  case _ rv heq =>
    repeat' split at heq
    all_goals try exact Option.noConfusion heq
    all_goals injection heq with heq
    all_goals subst heq
    all_goals exact ⟨by simp_all, by simp_all, by simp_all⟩
  all_goals exact ⟨by simp_all, by simp_all, by simp_all⟩

/-- C2 — witness: a well-formed line with a valid name and positive price
parses to a record whose name passes the gate and whose price is
positive. -/
theorem sams_line_parser_validity_gate_witness :
    (mkParsedRec [] (("Gold Frame").toList) 2 20).item_name ≠ [] ∧
      SamsReceipts.is_valid_item (mkParsedRec [] (("Gold Frame").toList) 2 20).item_name = true ∧
      0 < (mkParsedRec [] (("Gold Frame").toList) 2 20).total_price :=
  sams_line_parser_validity_gate.1 (("Gold Frame Qty 2 $20.00").toList)
    (mkParsedRec [] (("Gold Frame").toList) 2 20) (by decide)

/-! ### Assembler emission lemmas -/

theorem mem_costcoEmit (x r : ItemRec) (h : r ∈ ParseReceipts.costcoEmit x) : r = x := by
  unfold ParseReceipts.costcoEmit at h
  split at h
  · exact List.mem_singleton.mp h
  · exact absurd h (List.not_mem_nil r)

theorem mem_samsEmit (x r : ItemRec) (h : r ∈ SamsReceipts.samsEmit x) : r = x := by
  unfold SamsReceipts.samsEmit at h
  split at h
  · exact List.mem_singleton.mp h
  · exact absurd h (List.not_mem_nil r)

theorem stitchName_mk (c n : Str) (q : ℕ) (p : ℚ) (parts : List Str) :
    ∃ n', ParseReceipts.stitchName (mkParsedRec c n q p) parts = mkParsedRec c n' q p := by
  unfold ParseReceipts.stitchName
  split
  · exact ⟨n, rfl⟩
  · exact ⟨_, rfl⟩

theorem appendCont_mk (c n : Str) (q : ℕ) (p : ℚ) (ns : Str) :
    SamsReceipts.appendCont (mkParsedRec c n q p) ns =
      mkParsedRec c (stripWs (collapseWs (n ++ ' ' :: ns))) q p := rfl

/-- Emitted Costco records inherit the price identity from the parsed
record, whatever name stitching did. -/
theorem costcoEmit_stitch_price (info : ItemRec) (parts : List Str) (r : ItemRec)
    (hr : r ∈ ParseReceipts.costcoEmit (ParseReceipts.stitchName info parts))
    (hshape : ∃ c n q p, info = mkParsedRec c n q p) :
    1 ≤ r.quantity → r.unit_price * (r.quantity : ℚ) = r.total_price := by
  obtain ⟨c, n, q, p, rfl⟩ := hshape
  obtain ⟨n', hn⟩ := stitchName_mk c n q p parts
  rw [hn] at hr
  rw [mem_costcoEmit _ _ hr]
  intro hq
  exact mkParsedRec_price c n' q p (by simpa using hq)

/-- Emitted Sam's Club records inherit the price identity, with or without
a continuation line absorbed into the name. -/
theorem samsEmit_price (info : ItemRec) (r : ItemRec)
    (hr : r ∈ SamsReceipts.samsEmit info)
    (hshape : ∃ c n q p, info = mkParsedRec c n q p) :
    1 ≤ r.quantity → r.unit_price * (r.quantity : ℚ) = r.total_price := by
  obtain ⟨c, n, q, p, rfl⟩ := hshape
  rw [mem_samsEmit _ _ hr]
  intro hq
  exact mkParsedRec_price c n q p (by simpa using hq)

theorem appendCont_shape (info : ItemRec) (ns : Str)
    (hshape : ∃ c n q p, info = mkParsedRec c n q p) :
    ∃ c n q p, SamsReceipts.appendCont info ns = mkParsedRec c n q p := by
  obtain ⟨c, n, q, p, rfl⟩ := hshape
  exact ⟨c, _, q, p, appendCont_mk c n q p ns⟩

/-! ### Price identity for the assemblers -/

/-- Every record the Sam's Club assembler emits with quantity ≥ 1 satisfies
the exact identity `unit_price * quantity = total_price` (the unit price is
`total/quantity` when quantity > 1 and `total` otherwise). -/
theorem sams_go_price (n : ℕ) : ∀ (lines : List Str), lines.length ≤ n →
    ∀ r ∈ SamsReceipts.sams_go lines,
    1 ≤ r.quantity → r.unit_price * (r.quantity : ℚ) = r.total_price := by
  induction n with
  | zero =>
    intro lines hlen r hr
    have : lines = [] := List.length_eq_zero.mp (Nat.le_zero.mp hlen)
    subst this
    exact absurd hr (List.not_mem_nil r)
  | succ n ih =>
    intro lines hlen r hr
    match lines with
    | [] => exact absurd hr (List.not_mem_nil r)
    | [l] =>
      simp only [SamsReceipts.sams_go] at hr
      repeat' split at hr
      all_goals try exact absurd hr (List.not_mem_nil r)
      all_goals exact samsEmit_price _ r hr (parse_sams_club_line_shape _ _ (by assumption))
    | l :: nn :: rest2 =>
      simp only [SamsReceipts.sams_go] at hr
      repeat' split at hr
      all_goals try (rcases List.mem_append.mp hr with hr | hr)
      all_goals try exact absurd hr (List.not_mem_nil r)
      all_goals try (exact ih _ (by simp at hlen ⊢; omega) r hr)
      all_goals try exact samsEmit_price _ r hr (parse_sams_club_line_shape _ _ (by assumption))
      all_goals exact samsEmit_price _ r hr ((appendCont_shape _ _) (parse_sams_club_line_shape _ _ (by assumption)))

/-- Every record the Costco assembler emits with quantity ≥ 1 satisfies the
exact identity `unit_price * quantity = total_price`, for any pending
fragment state. -/
theorem costco_go_price (n : ℕ) : ∀ (lines : List Str), lines.length ≤ n →
    ∀ (p2 p1 : Option Str) (r : ItemRec), r ∈ ParseReceipts.costco_go p2 p1 lines →
    1 ≤ r.quantity → r.unit_price * (r.quantity : ℚ) = r.total_price := by
  induction n with
  | zero =>
    intro lines hlen p2 p1 r hr
    have : lines = [] := List.length_eq_zero.mp (Nat.le_zero.mp hlen)
    subst this
    exact absurd hr (List.not_mem_nil r)
  | succ n ih =>
    intro lines hlen p2 p1 r hr
    match lines with
    | [] => exact absurd hr (List.not_mem_nil r)
    | [l] =>
      simp only [ParseReceipts.costco_go] at hr
      repeat' split at hr
      all_goals try exact absurd hr (List.not_mem_nil r)
      all_goals try (rcases List.mem_append.mp hr with hr | hr)
      all_goals try exact absurd hr (List.not_mem_nil r)
      all_goals try (exact ih _ (by simp at hlen ⊢; omega) _ _ r hr)
      all_goals try exact costcoEmit_stitch_price _ _ r hr (parse_costco_line_shape _ _ (by assumption))
      all_goals exact costcoEmit_stitch_price _ [] r hr (parse_costco_line_shape _ _ (by assumption))
    | [l, n1] =>
      simp only [ParseReceipts.costco_go] at hr
      repeat' split at hr
      all_goals try exact absurd hr (List.not_mem_nil r)
      all_goals try (rcases List.mem_append.mp hr with hr | hr)
      all_goals try exact absurd hr (List.not_mem_nil r)
      all_goals try (exact ih _ (by simp at hlen ⊢; omega) _ _ r hr)
      all_goals try exact costcoEmit_stitch_price _ _ r hr (parse_costco_line_shape _ _ (by assumption))
      all_goals exact costcoEmit_stitch_price _ [] r hr (parse_costco_line_shape _ _ (by assumption))
    | l :: n1 :: n2 :: rest2 =>
      simp only [ParseReceipts.costco_go] at hr
      repeat' split at hr
      all_goals try exact absurd hr (List.not_mem_nil r)
      all_goals try (rcases List.mem_append.mp hr with hr | hr)
      all_goals try exact absurd hr (List.not_mem_nil r)
      all_goals try (exact ih _ (by simp at hlen ⊢; omega) _ _ r hr)
      all_goals try exact costcoEmit_stitch_price _ _ r hr (parse_costco_line_shape _ _ (by assumption))
      all_goals exact costcoEmit_stitch_price _ [] r hr (parse_costco_line_shape _ _ (by assumption))

/-- C1 — amended.  Every ItemRecord emitted by either retailer
parser/assembler whose quantity is at least 1 satisfies
`abs(total_price - unit_price*quantity) < 0.01`; the quantity ≥ 1 half of
the original claim fails (see the zero-multiplier counterexample). -/
theorem emitted_records_satisfy_price_identity (lines : List Str) (r : ItemRec)
    (hmem : r ∈ ParseReceipts.parse_costco_receipt lines ∨
      r ∈ SamsReceipts.parse_sams_club_receipt lines)
    (hq : 1 ≤ r.quantity) :
    |r.total_price - r.unit_price * (r.quantity : ℚ)| < 1 / 100 := by
  have hid : r.unit_price * (r.quantity : ℚ) = r.total_price := by
    rcases hmem with h | h
    · exact costco_go_price lines.length lines le_rfl none none r h hq
    · exact sams_go_price lines.length lines le_rfl r h hq
  rw [hid, sub_self, abs_zero]
  norm_num

/-- C1 — witness: the spec's own Format A example line emits a record with
quantity 1 that satisfies the price identity. -/
theorem emitted_records_satisfy_price_identity_witness :
    |(mkParsedRec (("782796").toList) (("***KSWTR40PK").toList) 1 (1197/100)).total_price -
      (mkParsedRec (("782796").toList) (("***KSWTR40PK").toList) 1 (1197/100)).unit_price *
        ((mkParsedRec (("782796").toList) (("***KSWTR40PK").toList) 1 (1197/100)).quantity : ℚ)| <
      1 / 100 :=
  emitted_records_satisfy_price_identity [("E 782796 ***KSWTR40PK 11.97 Y").toList]
    (mkParsedRec (("782796").toList) (("***KSWTR40PK").toList) 1 (1197/100))
    (Or.inl (by decide)) (by decide)

/-- C5 — amended.  For every collated Sam's Club group whose member rows all
carry the same pack size `p` (as parsed by `extract_pack_size`, default 1),
the group quantity equals the summed raw quantity of its members times `p`;
in general the quantity is the sum of per-row `unit_number * pack_size`
products, which the counterexample shows differs from any single
summed-times-pack value when pack sizes are mixed. -/
theorem uniform_pack_group_quantity (rows : List CollateSamsClub.SamsRow)
    (g : CollateSamsClub.SamsGroup) (p : ℕ)
    (hg : g ∈ CollateSamsClub.collate_groups rows)
    (hp : ∀ r ∈ rows, CollateSamsClub.rowKey r = g.key →
      CollateSamsClub.extract_pack_size r.item = p) :
    g.quantity =
      ((rows.filter (fun r => CollateSamsClub.rowKey r = g.key)).map
        (fun r => r.unit_number)).sum * p := by
  obtain ⟨k, hk, rfl⟩ := List.mem_map.mp hg
  simp only [CollateSamsClub.collate_groups] at hp ⊢
  have hall : ∀ r ∈ rows.filter (fun r => CollateSamsClub.rowKey r = k),
      r.unit_number * CollateSamsClub.extract_pack_size r.item = r.unit_number * p := by
    intro r hr
    have hm := List.mem_filter.mp hr
    rw [hp r hm.1 (by simpa using hm.2)]
  rw [List.map_congr_left hall, List.sum_map_mul_right]

/-- C5 — witness: the spec's example, a single-row group with raw quantity 1
and a name containing `24 ct`, resolves to quantity 24 = 1 * 24. -/
theorem uniform_pack_group_quantity_witness :
    ((⟨("Widget").toList, ("Widget 24 ct").toList, 24, 3498/100⟩ :
        CollateSamsClub.SamsGroup)).quantity =
      ((([⟨("Widget 24 ct").toList, 1, 3498/100⟩] :
          List CollateSamsClub.SamsRow).filter (fun r =>
            CollateSamsClub.rowKey r =
              ((⟨("Widget").toList, ("Widget 24 ct").toList, 24, 3498/100⟩ :
                CollateSamsClub.SamsGroup)).key)).map
        (fun r => r.unit_number)).sum * 24 :=
  uniform_pack_group_quantity [⟨("Widget 24 ct").toList, 1, 3498/100⟩]
    (⟨("Widget").toList, ("Widget 24 ct").toList, 24, 3498/100⟩) 24
    (by decide) (by decide)

/-! ### Format A full-form extraction (C7) -/


theorem digit_ne_Y (c : Char) (h : isDigitC c = true) : c ≠ 'Y' := by
  intro he; subst he; exact absurd h (by decide)

theorem digit_ne_N (c : Char) (h : isDigitC c = true) : c ≠ 'N' := by
  intro he; subst he; exact absurd h (by decide)

theorem digit_ne_dash (c : Char) (h : isDigitC c = true) : c ≠ '-' := by
  intro he; subst he; exact absurd h (by decide)

theorem collapseAux_lastNonWs (l : Str) : ∀ b, l ≠ [] → LastNonWs l →
    collapseAux b l ≠ [] ∧ LastNonWs (collapseAux b l) := by
  induction l with
  | nil => intro b h; exact absurd rfl h
  | cons c cs ih =>
    intro b _ hl
    by_cases hw : isWsp c = true
    · have hcs : cs ≠ [] := by
        intro hnil; subst hnil
        exact absurd (hl c rfl) (by simp [hw])
      have hlcs : LastNonWs cs := by
        intro d hd
        exact hl d (by rw [getLast?_cons_of_ne_nil c cs hcs, hd])
      have hrec := ih true hcs hlcs
      cases b with
      | true => rw [collapseAux_cons_ws_true c cs hw]; exact hrec
      | false =>
        rw [collapseAux_cons_ws_false c cs hw]
        refine ⟨by simp, ?_⟩
        intro d hd
        rw [getLast?_cons_of_ne_nil ' ' _ hrec.1] at hd
        exact hrec.2 d hd
    · have hw' : isWsp c = false := by simpa using hw
      rw [collapseAux_cons_nonws b c cs hw']
      cases hcs : cs with
      | nil =>
        subst hcs
        refine ⟨by simp, ?_⟩
        intro d hd
        simp only [collapseAux] at hd
        simp only [List.getLast?_singleton, Option.some.injEq] at hd
        subst hd
        exact hw'
      | cons e es =>
        rw [← hcs]
        have hcsne : cs ≠ [] := by rw [hcs]; simp
        have hlcs : LastNonWs cs := by
          intro d hd
          exact hl d (by rw [getLast?_cons_of_ne_nil c cs hcsne, hd])
        have hrec := ih false hcsne hlcs
        refine ⟨by simp, ?_⟩
        intro d hd
        rw [getLast?_cons_of_ne_nil c _ hrec.1] at hd
        exact hrec.2 d hd

theorem lastNonWs_collapseWs (l : Str) (h : l ≠ []) (hl : LastNonWs l) :
    collapseWs l ≠ [] ∧ LastNonWs (collapseWs l) :=
  collapseAux_lastNonWs l false h hl

theorem suffix_lastNonWs (l s : Str) (hs : s <:+ l) (hne : s ≠ [])
    (hl : LastNonWs l) : LastNonWs s := by
  intro d hd
  obtain ⟨t, rfl⟩ := hs
  exact hl d (by rw [List.getLast?_append_of_ne_nil t hne, hd])

theorem getLast?_some_of_ne_nil (l : Str) (h : l ≠ []) : ∃ c, l.getLast? = some c := by
  cases hgl : l.getLast? with
  | none => exact absurd (List.getLast?_eq_none_iff.mp hgl) h
  | some c => exact ⟨c, rfl⟩

theorem dropWhile_ws_ne_nil (l : Str) (hne : l ≠ []) (hl : LastNonWs l) :
    l.dropWhile isWsp ≠ [] := by
  intro hnil
  obtain ⟨c, hc⟩ := getLast?_some_of_ne_nil l hne
  have hcin : c ∈ l := by
    have h2 := List.getLast?_eq_getLast_of_ne_nil hne
    rw [hc] at h2
    injection h2 with h3
    rw [h3]
    exact List.getLast_mem hne
  have hcw : isWsp c = true := List.dropWhile_eq_nil_iff.mp hnil c hcin
  rw [hl c hc] at hcw
  cases hcw

theorem qtyStrip_snd_ne_nil (d : Str) (hd : d ≠ []) (hl : LastNonWs d) :
    (ParseReceipts.qtyStrip d).2 ≠ [] := by
  unfold ParseReceipts.qtyStrip
  dsimp only
  repeat' split
  all_goals try simpa using hd
  rename_i hsp r1 x hx r2 w tail heq hww
  have h1 : (List.span isDigitC d).2 <:+ d := by
    rw [List.span_eq_take_drop]
    exact List.dropWhile_suffix isDigitC
  have h2 : List.dropWhile isWsp (List.span isDigitC d).2 <:+ (List.span isDigitC d).2 :=
    List.dropWhile_suffix isWsp
  have h3 : (w :: tail) <:+ x :: w :: tail := ⟨[x], rfl⟩
  rw [← heq] at h3
  have hsuf : (w :: tail) <:+ d := (h3.trans h2).trans h1
  have hr3ne : (w :: tail) ≠ [] := by simp
  have hr3l : LastNonWs (w :: tail) := suffix_lastNonWs d _ hsuf hr3ne hl
  have hu : List.dropWhile isWsp (w :: tail) ≠ [] := dropWhile_ws_ne_nil _ hr3ne hr3l
  have hul : LastNonWs (List.dropWhile isWsp (w :: tail)) :=
    suffix_lastNonWs _ _ (List.dropWhile_suffix isWsp) hu hr3l
  have huh : HeadNonWs (List.dropWhile isWsp (w :: tail)) := headNonWs_dropWhile _
  show stripWs (List.dropWhile isWsp (w :: tail)) ≠ []
  rw [stripWs_eq_self _ huh hul]
  exact hu

theorem pat1Core_full (desc intp : Str) (f1 f2 : Char) (flag : Option Char)
    (hintp : intp ≠ []) (hintpd : ∀ c ∈ intp, isDigitC c = true)
    (hf1 : isDigitC f1 = true) (hf2 : isDigitC f2 = true)
    (hdesc : desc ≠ []) (hdl : LastNonWs desc)
    (hflag : flag = none ∨ flag = some 'Y' ∨ flag = some 'N') :
    ParseReceipts.pat1Core (desc ++ ' ' :: (intp ++ '.' :: f1 :: f2 :: flagSfx flag)) =
      some (desc, ParseReceipts.priceVal intp f1 f2) := by
  have hy : (f2 = 'Y') = False := by simp [digit_ne_Y f2 hf2]
  have hn : (f2 = 'N') = False := by simp [digit_ne_N f2 hf2]
  have htake : List.takeWhile isDigitC (intp.reverse ++ ' ' :: desc.reverse) = intp.reverse :=
    takeWhile_all_append isDigitC intp.reverse ' ' desc.reverse
      (fun c hc => hintpd c (List.mem_reverse.mp hc)) (by decide)
  have hdrop : List.dropWhile isDigitC (intp.reverse ++ ' ' :: desc.reverse) =
      ' ' :: desc.reverse :=
    dropWhile_all_append isDigitC intp.reverse ' ' desc.reverse
      (fun c hc => hintpd c (List.mem_reverse.mp hc)) (by decide)
  have hrne : (intp.reverse = []) = False := by simp [hintp]
  have hws : isWsp ' ' = true := by decide
  have hdw : List.dropWhile isWsp desc.reverse = desc.reverse :=
    dropWhile_eq_self_of_head desc.reverse (by
      intro c hc
      rw [List.head?_reverse] at hc
      exact hdl c hc)
  have hf2w : isWsp f2 = false := not_wsp_of_digit f2 hf2
  have hf2w' : ¬ isWsp f2 = true := by simp [hf2w]
  rcases hflag with hf | hf | hf <;> subst hf
  · have hs : (desc ++ ' ' :: (intp ++ '.' :: f1 :: f2 :: flagSfx none)).reverse =
        f2 :: f1 :: '.' :: (intp.reverse ++ ' ' :: desc.reverse) := by
      simp [flagSfx]
    have hr : List.dropWhile isWsp
        (desc ++ ' ' :: (intp ++ '.' :: f1 :: f2 :: flagSfx none)).reverse =
        f2 :: f1 :: '.' :: (intp.reverse ++ ' ' :: desc.reverse) := by
      rw [hs]
      exact List.dropWhile_cons_of_neg hf2w'
    simp only [ParseReceipts.pat1Core, hr, hy, hn, hf1, hf2, hrne, hws, hdw,
      List.reverse_reverse]
    simp [htake, hdrop, hws, hdw, hf1, hf2, hintp, hdesc]
  · have hs : (desc ++ ' ' :: (intp ++ '.' :: f1 :: f2 :: flagSfx (some 'Y'))).reverse =
        'Y' :: ' ' :: f2 :: f1 :: '.' :: (intp.reverse ++ ' ' :: desc.reverse) := by
      simp [flagSfx]
    have hr : List.dropWhile isWsp
        (desc ++ ' ' :: (intp ++ '.' :: f1 :: f2 :: flagSfx (some 'Y'))).reverse =
        'Y' :: ' ' :: f2 :: f1 :: '.' :: (intp.reverse ++ ' ' :: desc.reverse) := by
      rw [hs]
      exact List.dropWhile_cons_of_neg (by decide)
    have hr1 : List.dropWhile isWsp
        (' ' :: f2 :: f1 :: '.' :: (intp.reverse ++ ' ' :: desc.reverse)) =
        f2 :: f1 :: '.' :: (intp.reverse ++ ' ' :: desc.reverse) := by
      rw [List.dropWhile_cons_of_pos (by decide)]
      exact List.dropWhile_cons_of_neg hf2w'
    simp only [ParseReceipts.pat1Core, hr, hr1, hf1, hf2, hrne, hws, hdw,
      List.reverse_reverse]
    simp [htake, hdrop, hws, hdw, hf1, hf2, hintp, hdesc]
  · have hs : (desc ++ ' ' :: (intp ++ '.' :: f1 :: f2 :: flagSfx (some 'N'))).reverse =
        'N' :: ' ' :: f2 :: f1 :: '.' :: (intp.reverse ++ ' ' :: desc.reverse) := by
      simp [flagSfx]
    have hr : List.dropWhile isWsp
        (desc ++ ' ' :: (intp ++ '.' :: f1 :: f2 :: flagSfx (some 'N'))).reverse =
        'N' :: ' ' :: f2 :: f1 :: '.' :: (intp.reverse ++ ' ' :: desc.reverse) := by
      rw [hs]
      exact List.dropWhile_cons_of_neg (by decide)
    have hr1 : List.dropWhile isWsp
        (' ' :: f2 :: f1 :: '.' :: (intp.reverse ++ ' ' :: desc.reverse)) =
        f2 :: f1 :: '.' :: (intp.reverse ++ ' ' :: desc.reverse) := by
      rw [List.dropWhile_cons_of_pos (by decide)]
      exact List.dropWhile_cons_of_neg hf2w'
    simp only [ParseReceipts.pat1Core, hr, hr1, hf1, hf2, hrne, hws, hdw,
      List.reverse_reverse]
    simp [htake, hdrop, hws, hdw, hf1, hf2, hintp, hdesc]

theorem pat1Match_full (code desc intp : Str) (f1 f2 : Char) (flag : Option Char)
    (hcode : code ≠ []) (hcoded : ∀ c ∈ code, isDigitC c = true)
    (hintp : intp ≠ []) (hintpd : ∀ c ∈ intp, isDigitC c = true)
    (hf1 : isDigitC f1 = true) (hf2 : isDigitC f2 = true)
    (hdesc : desc ≠ []) (hdh : HeadNonWs desc) (hdl : LastNonWs desc)
    (hflag : flag = none ∨ flag = some 'Y' ∨ flag = some 'N') :
    ParseReceipts.pat1Match ('E' :: ' ' :: (code ++ ' ' ::
        (desc ++ ' ' :: (intp ++ '.' :: f1 :: f2 :: flagSfx flag)))) =
      some (code, desc, ParseReceipts.priceVal intp f1 f2) := by
  have hws : isWsp ' ' = true := by decide
  have hcodeh : HeadNonWs (code ++ ' ' :: (desc ++ ' ' ::
      (intp ++ '.' :: f1 :: f2 :: flagSfx flag))) := by
    cases code with
    | nil => exact absurd rfl hcode
    | cons a t =>
      intro c hc
      rw [List.cons_append] at hc
      injection hc with h2
      subst h2
      exact not_wsp_of_digit a (hcoded a (List.mem_cons_self a t))
  have hdw2 : List.dropWhile isWsp (code ++ ' ' :: (desc ++ ' ' ::
      (intp ++ '.' :: f1 :: f2 :: flagSfx flag))) = code ++ ' ' ::
      (desc ++ ' ' :: (intp ++ '.' :: f1 :: f2 :: flagSfx flag)) :=
    dropWhile_eq_self_of_head _ hcodeh
  have htake : List.takeWhile isDigitC (code ++ ' ' :: (desc ++ ' ' ::
      (intp ++ '.' :: f1 :: f2 :: flagSfx flag))) = code :=
    takeWhile_all_append isDigitC code ' ' _ hcoded (by decide)
  have hdrop : List.dropWhile isDigitC (code ++ ' ' :: (desc ++ ' ' ::
      (intp ++ '.' :: f1 :: f2 :: flagSfx flag))) = ' ' ::
      (desc ++ ' ' :: (intp ++ '.' :: f1 :: f2 :: flagSfx flag)) :=
    dropWhile_all_append isDigitC code ' ' _ hcoded (by decide)
  have hsdw : List.dropWhile isWsp (desc ++ ' ' ::
      (intp ++ '.' :: f1 :: f2 :: flagSfx flag)) = desc ++ ' ' ::
      (intp ++ '.' :: f1 :: f2 :: flagSfx flag) := by
    refine dropWhile_eq_self_of_head _ ?_
    cases desc with
    | nil => exact absurd rfl hdesc
    | cons a t =>
      intro c hc
      rw [List.cons_append] at hc
      injection hc with h2
      subst h2
      exact hdh a rfl
  have hcore := pat1Core_full desc intp f1 f2 flag hintp hintpd hf1 hf2 hdesc hdl hflag
  simp only [ParseReceipts.pat1Match, hws, hdw2, htake, hdrop, hsdw, hcore, hcode]
  simp [htake, hdrop, hws, hsdw, hcore, hcode]

theorem headNonWs_of_bool (l : Str) (h : l.head?.all (fun c => !isWsp c) = true) :
    HeadNonWs l := by
  intro c hc
  rw [hc] at h
  simpa using h

theorem lastNonWs_of_bool (l : Str) (h : l.getLast?.all (fun c => !isWsp c) = true) :
    LastNonWs l := by
  intro c hc
  rw [hc] at h
  simpa using h

/-- C7.  For every composed Format A full-form line
`E <code> <desc> <int>.<dd>[ <Y|N>]` — numeric code, non-whitespace-delimited
description, two-decimal price, optional flag — that passes the line
parser's keyword pre-filter, `parse_costco_line` extracts the code and
price, collapses the description's whitespace, turns a leading
`<int> x ` prefix (case-insensitive) into the quantity (default 1),
and strips that prefix from the name. -/
theorem format_a_full_form_extraction (code desc intp : Str) (f1 f2 : Char)
    (flag : Option Char)
    (hcode : code ≠ []) (hcoded : ∀ c ∈ code, isDigitC c = true)
    (hintp : intp ≠ []) (hintpd : ∀ c ∈ intp, isDigitC c = true)
    (hf1 : isDigitC f1 = true) (hf2 : isDigitC f2 = true)
    (hdesc : desc ≠ []) (hdh : HeadNonWs desc) (hdl : LastNonWs desc)
    (hflag : flag = none ∨ flag = some 'Y' ∨ flag = some 'N')
    (hskip : containsAnyUpper ParseReceipts.costcoLineSkipWords
      ('E' :: ' ' :: (code ++ ' ' ::
        (desc ++ ' ' :: (intp ++ '.' :: f1 :: f2 :: flagSfx flag)))) = false) :
    ParseReceipts.parse_costco_line
      ('E' :: ' ' :: (code ++ ' ' ::
        (desc ++ ' ' :: (intp ++ '.' :: f1 :: f2 :: flagSfx flag)))) =
      some (mkParsedRec code
        (ParseReceipts.qtyStrip (collapseWs desc)).2
        (ParseReceipts.qtyStrip (collapseWs desc)).1
        (ParseReceipts.priceVal intp f1 f2)) := by
  have hassoc : 'E' :: ' ' :: (code ++ ' ' ::
      (desc ++ ' ' :: (intp ++ '.' :: f1 :: f2 :: flagSfx flag))) =
      ('E' :: ' ' :: (code ++ ' ' :: (desc ++ ' ' :: intp))) ++
        ('.' :: f1 :: f2 :: flagSfx flag) := by
    simp
  have hlast : ∃ lc, ('E' :: ' ' :: (code ++ ' ' ::
      (desc ++ ' ' :: (intp ++ '.' :: f1 :: f2 :: flagSfx flag)))).getLast? = some lc ∧
      isWsp lc = false ∧ lc ≠ '-' := by
    rw [hassoc, List.getLast?_append_of_ne_nil _ (by simp)]
    rcases hflag with hf | hf | hf <;> subst hf
    · exact ⟨f2, rfl, not_wsp_of_digit f2 hf2, digit_ne_dash f2 hf2⟩
    · exact ⟨'Y', rfl, by decide, by decide⟩
    · exact ⟨'N', rfl, by decide, by decide⟩
  obtain ⟨lc, hgl, hlw, hld⟩ := hlast
  have hlineL : LastNonWs ('E' :: ' ' :: (code ++ ' ' ::
      (desc ++ ' ' :: (intp ++ '.' :: f1 :: f2 :: flagSfx flag)))) := by
    intro c hc
    rw [hgl] at hc
    injection hc with h2
    subst h2
    exact hlw
  have hlineH : HeadNonWs ('E' :: ' ' :: (code ++ ' ' ::
      (desc ++ ' ' :: (intp ++ '.' :: f1 :: f2 :: flagSfx flag)))) := by
    intro c hc
    injection hc with h2
    subst h2
    decide
  have hstrip : stripWs ('E' :: ' ' :: (code ++ ' ' ::
      (desc ++ ' ' :: (intp ++ '.' :: f1 :: f2 :: flagSfx flag)))) =
      'E' :: ' ' :: (code ++ ' ' ::
      (desc ++ ' ' :: (intp ++ '.' :: f1 :: f2 :: flagSfx flag))) :=
    stripWs_eq_self _ hlineH hlineL
  have hends : endsWithChar '-' ('E' :: ' ' :: (code ++ ' ' ::
      (desc ++ ' ' :: (intp ++ '.' :: f1 :: f2 :: flagSfx flag)))) = false := by
    unfold endsWithChar
    rw [hgl]
    simp [hld]
  have hmatch := pat1Match_full code desc intp f1 f2 flag hcode hcoded hintp hintpd
    hf1 hf2 hdesc hdh hdl hflag
  have hsdesc : stripWs desc = desc := stripWs_eq_self desc hdh hdl
  have hcne : collapseWs desc ≠ [] := collapseWs_ne_nil desc hdesc
  have hcl : LastNonWs (collapseWs desc) := (lastNonWs_collapseWs desc hdesc hdl).2
  have hqn : (ParseReceipts.qtyStrip (collapseWs desc)).2 ≠ [] :=
    qtyStrip_snd_ne_nil (collapseWs desc) hcne hcl
  simp only [ParseReceipts.parse_costco_line, hstrip, hends, Bool.and_false,
    hskip, hmatch, hsdesc, hqn]
  simp [hqn]

theorem format_a_full_form_extraction_witness :
    ParseReceipts.parse_costco_line (("E 782796 ***KSWTR40PK 11.97 Y").toList) =
      some (mkParsedRec (("782796").toList) (("***KSWTR40PK").toList) 1 (1197/100)) ∧
    ParseReceipts.parse_costco_line (("E 100 2 x Widget 10.00 Y").toList) =
      some (mkParsedRec (("100").toList) (("Widget").toList) 2 10) := by
  constructor
  · have h := format_a_full_form_extraction (("782796").toList) (("***KSWTR40PK").toList)
      (("11").toList) '9' '7' (some 'Y')
      (by decide) (by decide) (by decide) (by decide) (by decide) (by decide) (by decide)
      (headNonWs_of_bool _ (by decide)) (lastNonWs_of_bool _ (by decide))
      (Or.inr (Or.inl rfl)) (by decide)
    have hline : ("E 782796 ***KSWTR40PK 11.97 Y").toList =
        'E' :: ' ' :: ((("782796").toList) ++ ' ' :: ((("***KSWTR40PK").toList) ++ ' ' ::
          ((("11").toList) ++ '.' :: '9' :: '7' :: flagSfx (some 'Y')))) := by decide
    rw [hline]
    exact h.trans (by decide)
  · have h := format_a_full_form_extraction (("100").toList) (("2 x Widget").toList)
      (("10").toList) '0' '0' (some 'Y')
      (by decide) (by decide) (by decide) (by decide) (by decide) (by decide) (by decide)
      (headNonWs_of_bool _ (by decide)) (lastNonWs_of_bool _ (by decide))
      (Or.inr (Or.inl rfl)) (by decide)
    have hline : ("E 100 2 x Widget 10.00 Y").toList =
        'E' :: ' ' :: ((("100").toList) ++ ' ' :: ((("2 x Widget").toList) ++ ' ' ::
          ((("10").toList) ++ '.' :: '0' :: '0' :: flagSfx (some 'Y')))) := by decide
    rw [hline]
    exact h.trans (by decide)
